import Mathlib

/-!
Verification of the pravenc-md scraper scripts.

The Python sources are shallowly embedded over `Text := List Char`:
each character of a Python `str` is one `Char`, so Python character
slicing (`s[5:]`) is `List.drop`, `str.strip()` is `pyStrip`, and so on.
HTML element trees are embedded as explicit inductive trees; an element
that the scripts only inspect through its text nodes is embedded as the
list of those text nodes.
-/

/-- One Python string, character by character. -/
abbrev Text := List Char

/-- Whitespace as recognised by Python `str.strip` (ASCII part). -/
def pyIsSpace (c : Char) : Bool :=
  c = ' ' || c = '\t' || c = '\n' || c = '\r' || c = '\x0b' || c = '\x0c'

/-- Python `str.strip()`: remove leading and trailing whitespace. -/
def pyStrip (t : Text) : Text :=
  ((t.dropWhile pyIsSpace).reverse.dropWhile pyIsSpace).reverse

/-- Boolean test that `p` starts the string `s` (Python `str.startswith`). -/
def leadsWith : Text → Text → Bool
  | [], _ => true
  | _ :: _, [] => false
  | p :: ps, c :: cs => p == c && leadsWith ps cs

/-- Boolean test that `p` occurs somewhere inside `s` (Python `in`). -/
def occursIn (p : Text) : Text → Bool
  | [] => p == []
  | c :: rest => leadsWith p (c :: rest) || occursIn p rest

/-- Index of the first occurrence of `p` in `s` (Python `str.find`),
`none` when absent. -/
def subIndex (p : Text) : Text → Option Nat
  | [] => if p = [] then some 0 else none
  | c :: rest =>
    if leadsWith p (c :: rest) then some 0
    else (subIndex p rest).map (· + 1)

/-- Scanning loop of Python `str.replace(pat, repl)`; the fuel is at
least the length of the scanned text, so the fuel-exhausted branch is
never taken (every recursive call consumes at least one character of a
text no longer than the fuel). -/
def replaceAllGo (pat repl : Text) : Nat → Text → Text
  | _, [] => []
  | 0, s => s
  | fuel + 1, c :: rest =>
    if pat ≠ [] ∧ leadsWith pat (c :: rest) then
      repl ++ replaceAllGo pat repl fuel ((c :: rest).drop pat.length)
    else
      c :: replaceAllGo pat repl fuel rest

/-- Python `str.replace(pat, repl)` for a nonempty pattern: replace every
non-overlapping occurrence, scanning left to right. -/
def replaceAllSub (pat repl : Text) (s : Text) : Text :=
  replaceAllGo pat repl s.length s

/-- Python `str.split(sep)` for a one-character separator. -/
def splitOnChar (sep : Char) : Text → List Text
  | [] => [[]]
  | c :: rest =>
    if c = sep then [] :: splitOnChar sep rest
    else
      match splitOnChar sep rest with
      | [] => [[c]]
      | h :: t => (c :: h) :: t

/-- Python `sep.join(parts)`. -/
def intercal (sep : Text) : List Text → Text
  | [] => []
  | [x] => x
  | x :: y :: rest => x ++ sep ++ intercal sep (y :: rest)

/-- BeautifulSoup `get_text(strip=True)` on an element whose text nodes
are `nodes`: each string is stripped and the results are concatenated. -/
def getTextStrip (nodes : List Text) : Text :=
  (nodes.map pyStrip).flatten

/-! ## Reference-heading level (scrape_pravenc.process_content_with_references)

A body subtree is represented by the document-order list of the names of
its descendant elements (`find_all` flattens the tree in exactly this way;
the level computation looks only at element names). -/

/-- Membership test for `find_all(['h1','h2','h3','h4','h5','h6'])`. -/
def isHeadingTag (n : Text) : Bool :=
  if n = "h1".data then true
  else if n = "h2".data then true
  else if n = "h3".data then true
  else if n = "h4".data then true
  else if n = "h5".data then true
  else if n = "h6".data then true
  else false

/-- Python `int` on a string of decimal digits. -/
def digitsToNat (t : Text) : Nat :=
  t.foldl (fun a c => a * 10 + (c.toNat - 48)) 0

/-- The loop of `process_content_with_references` collecting heading
levels: keep elements found by `find_all` on the six heading names, then
for each check `name.startswith('h') and name[1:].isdigit()` and parse
`int(name[1:])`. -/
def heading_levels (body : List Text) : List Nat :=
  (body.filter (fun n => isHeadingTag n)).filterMap (fun n =>
    if n ≠ [] ∧ leadsWith "h".data n = true ∧ n.drop 1 ≠ [] ∧ (n.drop 1).all Char.isDigit then
      some (digitsToNat (n.drop 1))
    else none)

/-- Reference heading level: `min(heading_levels) + 1` clamped to 6 when
headings exist, else 1 (lines 75–80 of scrape_pravenc.py). -/
def reference_level (body : List Text) : Nat :=
  match (heading_levels body).min? with
  | some m => min (m + 1) 6
  | none => 1

/-- Spec-side description for C2: the level of a heading tag, read off a
fixed table rather than parsed from the name. -/
def tagLevel (n : Text) : Option Nat :=
  if n = "h1".data then some 1
  else if n = "h2".data then some 2
  else if n = "h3".data then some 3
  else if n = "h4".data then some 4
  else if n = "h5".data then some 5
  else if n = "h6".data then some 6
  else none

/-- Spec-side description for C2: levels of the headings present in the body. -/
def levelsPresent (body : List Text) : List Nat :=
  body.filterMap tagLevel

/-! ## Author extraction (scrape_pravenc.extract_fields, lines 388–407)

An author node (`div.author`) is represented by the list of its text
nodes; its visible text is `getTextStrip`. -/

/-- Contribution of one author node to `all_authors`: nothing when its
text is empty, otherwise the comma-split, stripped pieces. -/
def authorPieces (el : List Text) : List Text :=
  if getTextStrip el ≠ [] then (splitOnChar ',' (getTextStrip el)).map pyStrip else []

/-- The `all_authors` accumulation loop: for each author node with
nonempty text, split the text on commas, strip each piece, extend. -/
def all_authors (authorEls : List (List Text)) : List Text :=
  authorEls.foldl (fun acc el => acc ++ authorPieces el) []

/-- One step of the dedup loop: keep `a` when it is nonempty and unseen
(`seen_authors` is a Python set, embedded as the list of its members). -/
def dedupStep (st : List Text × List Text) (a : Text) : List Text × List Text :=
  if a ≠ [] ∧ a ∉ st.2 then (st.1 ++ [a], a :: st.2) else st

/-- The `unique_authors` loop: deduplicate `all_authors`, discarding
empties, preserving first-seen order (`seen_authors` is the second
component of the state). -/
def unique_authors (authorEls : List (List Text)) : List Text :=
  ((all_authors authorEls).foldl dedupStep ([], [])).1

/-- `author_html`: the unique authors joined with a comma and space. -/
def author_html (authorEls : List (List Text)) : Text :=
  intercal ", ".data (unique_authors authorEls)

/-- Spec-side description for C3: split every author text on commas,
trim, flatten, discard empties. -/
def specAuthorPieces (authorEls : List (List Text)) : List Text :=
  ((authorEls.map (fun el => (splitOnChar ',' (getTextStrip el)).map pyStrip)).flatten).filter
    (fun a => a ≠ [])

/-- Spec-side description for C3: first-seen-order deduplication. -/
def firstSeenDedup (seen : List Text) : List Text → List Text
  | [] => []
  | a :: rest =>
    if a ∈ seen then firstSeenDedup seen rest
    else a :: firstSeenDedup (a :: seen) rest

/-- Recursive form of the code dedup loop, used to relate the `foldl`
to `firstSeenDedup`: it also filters out empty strings. -/
def dedupRecE (seen : List Text) : List Text → List Text
  | [] => []
  | a :: rest =>
    if a ≠ [] ∧ a ∉ seen then a :: dedupRecE (a :: seen) rest
    else dedupRecE seen rest

/-! ## Reference blocks (scrape_pravenc.process_nested_content, lines 150–204,
and process_element_with_references, lines 268–321; the two branches are
identical)

A reference block (`div.reference`) is represented by the list of its
text nodes (`find_all(string=True)`); its visible text for the
`startswith` tests is `getTextStrip`. -/

/-- The literature-category marker "Соч.:". -/
def sochPfx : Text := "Соч.:".data

/-- The literature-category marker "Ист.:". -/
def istPfx : Text := "Ист.:".data

/-- The literature-category marker "Лит.:". -/
def litPfx : Text := "Лит.:".data

/-- The abbreviation-removal loop: every text node whose stripped text
starts with the marker is replaced by its stripped text with the first
five characters removed (`text_node.strip()[5:]`). -/
def stripPfxNodes (p : Text) (nodes : List Text) : List Text :=
  nodes.map (fun t => if leadsWith p (pyStrip t) then (pyStrip t).drop 5 else t)

/-- Category detection and abbreviation removal for one reference block:
returns the emitted heading text and the processed text nodes. -/
def process_reference (nodes : List Text) : Text × List Text :=
  let refText := getTextStrip nodes
  if leadsWith sochPfx refText then ("Сочинения".data, stripPfxNodes sochPfx nodes)
  else if leadsWith istPfx refText then ("Источники".data, stripPfxNodes istPfx nodes)
  else if leadsWith litPfx refText then ("Литература".data, stripPfxNodes litPfx nodes)
  else ("Литература".data, nodes)

/-! ## Church Slavonic image substitution
(convert_church_slavonic_to_unicode.py)

The source builds an unused `unicode_chars` list (lines 46–52) and then
rebuilds the text in the positional loop of lines 56–81; only the loop
affects the output, so only it is embedded. The two
`replace(' ', ' ')` calls in the source replace a space by a space and
are embedded literally. -/

/-- A hexadecimal digit as accepted by the pattern `x[0-9a-fA-F]{2,3}`. -/
def isHexDigitCh (c : Char) : Bool :=
  c.isDigit || ('a' ≤ c && c ≤ 'f') || ('A' ≤ c && c ≤ 'F')

/-- `re.findall(r'x[0-9a-fA-F]{2,3}', s)`: scan left to right; at each
`x` greedily take three hex digits, else two; continue after a match. -/
def findChunksGo : Nat → Text → List Text
  | _, [] => []
  | 0, _ => []
  | fuel + 1, c :: rest =>
    if c = 'x' ∧ 3 ≤ rest.length ∧ (rest.take 3).all isHexDigitCh then
      ('x' :: rest.take 3) :: findChunksGo fuel (rest.drop 3)
    else if c = 'x' ∧ 2 ≤ rest.length ∧ (rest.take 2).all isHexDigitCh then
      ('x' :: rest.take 2) :: findChunksGo fuel (rest.drop 2)
    else findChunksGo fuel rest

/-- `re.findall(r'x[0-9a-fA-F]{2,3}', s)` (the fuel of the scanning loop
starts at the text length and never runs out). -/
def findChunks (t : Text) : List Text :=
  findChunksGo t.length t

/-- Python dict lookup on an association list (keys are unique in the
JSON mapping; first match). -/
def pyLookup (m : List (Text × Text)) (k : Text) : Option Text :=
  match m with
  | [] => none
  | (k', v) :: rest => if k' = k then some v else pyLookup rest k

/-- The per-chunk substitution: the mapped string when present, else the
bracketed literal `[chunk]`. -/
def mappedOf (m : List (Text × Text)) (chunk : Text) : Text :=
  match pyLookup m chunk with
  | some s => s
  | none => '[' :: (chunk ++ [']'])

/-- The positional reconstruction loop (lines 56–81): for each chunk,
locate it in the remaining sequence, copy the text before it, append the
substitution, and drop through it; afterwards append the remaining text.
When `find` misses (`-1` in Python) no text is copied and the remaining
sequence is sliced from `len(chunk) - 1`. -/
def buildResult (m : List (Text × Text)) : List Text → Text → Text
  | [], remaining => replaceAllSub [' '] [' '] remaining
  | chunk :: rest, remaining =>
    match subIndex chunk remaining with
    | some p =>
      (if p > 0 then replaceAllSub [' '] [' '] (remaining.take p) else [])
        ++ mappedOf m chunk ++ buildResult m rest (remaining.drop (p + chunk.length))
    | none => mappedOf m chunk ++ buildResult m rest (remaining.drop (chunk.length - 1))

/-- `replace_image` (lines 30–84): clean the code sequence, return the
empty string for an empty sequence, otherwise rebuild the text and wrap
it in the styled span. -/
def replace_image (m : List (Text × Text)) (charType codeSeq0 : Text) : Text :=
  let codeSeq := pyStrip (replaceAllSub "/image.png".data [] codeSeq0)
  if codeSeq = [] then []
  else "<span class=\"cu\">".data ++ buildResult m (findChunks codeSeq) codeSeq
    ++ "</span>".data

/-- The literal head of the image-reference pattern. -/
def refHead : Text := "![](<https://pravenc.ru/char/".data

/-- Match the pattern
`!\[\]\(<https://pravenc\.ru/char/(26526|26528)/([^>]+)>\)` at the start
of `s`: returns the char type, the code-sequence group and the total
number of characters matched (always at least one). The greedy `[^>]+`
takes the maximal run of non-`>` characters, after which `>)` must
follow. -/
def matchRef (s : Text) : Option (Text × Text × Nat) :=
  if leadsWith refHead s then
    let s1 := s.drop refHead.length
    let ct :=
      if leadsWith "26526".data s1 then some "26526".data
      else if leadsWith "26528".data s1 then some "26528".data
      else none
    match ct with
    | none => none
    | some ctv =>
      let s2 := s1.drop 5
      if leadsWith "/".data s2 then
        let s3 := s2.drop 1
        let body := s3.takeWhile (fun c => c ≠ '>')
        if body ≠ [] ∧ leadsWith ">)".data (s3.drop body.length) then
          some (ctv, body, refHead.length + 5 + 1 + body.length + 2)
        else none
      else none
  else none

/-- `re.sub(pattern, replace_image, content)`: scan the content left to
right, replacing every match of the image-reference pattern and copying
everything else. The matched length `k` returned by `matchRef` is always
at least one, so dropping `k - 1` of `rest` drops `k` characters of the
input. -/
def convertGo (m : List (Text × Text)) : Nat → Text → Text
  | _, [] => []
  | 0, s => s
  | fuel + 1, c :: rest =>
    match matchRef (c :: rest) with
    | some (ctv, body, k) =>
      replace_image m ctv body ++ convertGo m fuel (rest.drop (k - 1))
    | none => c :: convertGo m fuel rest

/-- `convert_church_slavonic_images` (the scanning fuel starts at the
content length and never runs out). -/
def convert_church_slavonic_images (m : List (Text × Text)) (content : Text) : Text :=
  convertGo m content.length content

/-! ## Batch driver (batch_scrape.process_urls_from_file, lines 42–74)

One URL of the batch is represented by the outcome of its scraper run:
the subprocess return code, or an exception raised while launching it. -/

/-- Outcome of one URL of a batch run. -/
inductive UrlOutcome where
  | ret (code : Nat)
  | exc
deriving DecidableEq

/-- The batch loop: count a success for return code 0 and a failure for
any other return code or an exception; afterwards the process exit code
is 0 when nothing failed and 1 otherwise. Returns
`(successful, failed, exitCode)`. -/
def batchStep (p : Nat × Nat) (o : UrlOutcome) : Nat × Nat :=
  match o with
  | .ret 0 => (p.1 + 1, p.2)
  | .ret (_ + 1) => (p.1, p.2 + 1)
  | .exc => (p.1, p.2 + 1)

/-- The counting loop of the batch run, followed by the exit-code rule
`return 0 if failed == 0 else 1`. -/
def process_urls_from_file (outcomes : List UrlOutcome) : Nat × Nat × Nat :=
  let counts := outcomes.foldl batchStep (0, 0)
  (counts.1, counts.2, if counts.2 = 0 then 0 else 1)

/-! ## Listing crawl (extract_urls.extract_all_article_urls, lines 54–101)

Fetching page `p` is represented by a function from page numbers to
results: the extracted URL list on success, an HTTP 404, another HTTP
error, or any other exception. -/

/-- Result of fetching and parsing one listing page. -/
inductive PageResult where
  | ok (urls : List Text)
  | notFound
  | httpErr
  | excErr
deriving DecidableEq

/-- The crawl loop over the given page numbers: accumulate URLs of
successful pages, stop at the first HTTP 404, skip pages with other
errors. -/
def crawlPages (pages : Nat → PageResult) : List Nat → List Text
  | [] => []
  | p :: rest =>
    match pages p with
    | .ok urls => urls ++ crawlPages pages rest
    | .notFound => []
    | .httpErr => crawlPages pages rest
    | .excErr => crawlPages pages rest

/-- Python `range(start_page, end_page + 1)`. -/
def pageRange (startPage endPage : Nat) : List Nat :=
  List.range' startPage (endPage + 1 - startPage)

/-- One step of the URL dedup loop (`seen_urls` is a Python set,
embedded as the list of its members). -/
def urlDedupStep (st : List Text × List Text) (u : Text) : List Text × List Text :=
  if u ∈ st.2 then st else (st.1 ++ [u], u :: st.2)

/-- The URL dedup loop of lines 83–88: keep first occurrences. -/
def dedupUrls (l : List Text) : List Text :=
  (l.foldl urlDedupStep ([], [])).1

/-- `extract_all_article_urls`: crawl the page range, then save the
deduplicated URL list (the saved file is represented by the list). -/
def extract_all_article_urls (pages : Nat → PageResult)
    (startPage endPage : Nat) : List Text :=
  dedupUrls (crawlPages pages (pageRange startPage endPage))

/-- URLs contributed by one page result: the extracted list on success,
nothing otherwise. -/
def pageOkUrls : PageResult → List Text
  | .ok urls => urls
  | _ => []

/-! ## Output basenames (scrape_pravenc.sanitize_filename lines 16–21,
url_to_basename lines 24–31) -/

/-- Python `str.endswith`. -/
def trailsWith (p s : Text) : Bool := leadsWith p.reverse s.reverse

/-- Replace every maximal run of characters satisfying `p` by the single
character `r` (the `re.sub(r"\s+", "-", ...)` and `re.sub(r"-+", "-", ...)`
steps). -/
def collapseRunsGo (p : Char → Bool) (r : Char) : Nat → Text → Text
  | _, [] => []
  | 0, s => s
  | fuel + 1, c :: rest =>
    if p c then r :: collapseRunsGo p r fuel (rest.dropWhile p)
    else c :: collapseRunsGo p r fuel rest

/-- Run collapsing, with the scanning fuel starting at the text length
(never exhausted, since `dropWhile` only shortens the text). -/
def collapseRuns (p : Char → Bool) (r : Char) (t : Text) : Text :=
  collapseRunsGo p r t.length t

/-- Characters kept by `re.sub(r"[^a-z0-9\-._]", "", ...)`. -/
def allowedChar (c : Char) : Bool :=
  ('a' ≤ c && c ≤ 'z') || ('0' ≤ c && c ≤ '9') || c = '-' || c = '.' || c = '_'

/-- `sanitize_filename`: strip, lowercase, collapse whitespace runs to
hyphens, drop disallowed characters, collapse hyphen runs, truncate to
120 characters, fall back to "article" when empty. -/
def sanitize_filename (t : Text) : Text :=
  let t1 := (pyStrip t).map Char.toLower
  let t2 := collapseRuns pyIsSpace '-' t1
  let t3 := t2.filter allowedChar
  let t4 := collapseRuns (fun c => c = '-') '-' t3
  let t5 := t4.take 120
  if t5 = [] then "article".data else t5

/-- The maximal suffix of decimal digits. -/
def digitSuffix (t : Text) : Text := (t.reverse.takeWhile Char.isDigit).reverse

/-- `re.search(r"/(\d+)(?:\.html)?$", url)`: the URL ends in `/` followed
by digits, optionally followed by `.html`; returns the digit group. -/
def numericId (url : Text) : Option Text :=
  let core := if trailsWith ".html".data url then url.take (url.length - 5) else url
  let ds := digitSuffix core
  if ds ≠ [] ∧ (core.take (core.length - ds.length)).getLast? = some '/' then some ds
  else none

/-- Python `url.rstrip("/")`. -/
def rstripSlash (t : Text) : Text := (t.reverse.dropWhile (fun c => c = '/')).reverse

/-- `url_to_basename`: the numeric article id when the URL ends in it,
otherwise the sanitized last path segment with any query and `.html`
removed. -/
def url_to_basename (url : Text) : Text :=
  match numericId url with
  | some ds => ds
  | none =>
    let seg := (splitOnChar '/' (rstripSlash url)).getLastD []
    let seg := (splitOnChar '?' seg).headD []
    let seg := replaceAllSub ".html".data [] seg
    sanitize_filename seg

/-- Split a text at its maximal runs of characters satisfying `p` (the
pieces between runs, in order, including the empty pieces at the ends when
the text starts or ends with a run); joining the pieces with one `r`
realises the description "each whitespace run is replaced by a single
hyphen" (spec-side helper, to be compared with the scanning
`collapseRuns`). -/
def splitRunsGo (p : Char → Bool) : Nat → Text → List Text
  | _, [] => [[]]
  | 0, s => [s]
  | fuel + 1, c :: rest =>
    if p c then [] :: splitRunsGo p fuel (rest.dropWhile p)
    else
      match splitRunsGo p fuel rest with
      | [] => [[c]]
      | h :: t => (c :: h) :: t

/-- Run splitting, with the scanning fuel starting at the text length. -/
def splitRuns (p : Char → Bool) (t : Text) : List Text :=
  splitRunsGo p t.length t

/-- The slug transformation exactly as the claim words it (spec-side, for
comparison with `sanitize_filename`): lowercase, collapse each whitespace
run to a hyphen, remove characters outside `[a-z0-9-._]`, truncate to 120
characters. -/
def claimSlug (t : Text) : Text :=
  ((intercal ['-'] (splitRuns pyIsSpace (t.map Char.toLower))).filter allowedChar).take 120

/-- The slug transformation of the amended claim (spec-side, for comparison
with `sanitize_filename`): trim surrounding whitespace, lowercase, replace
each maximal whitespace run by one hyphen, remove characters outside
`[a-z0-9-._]`, collapse hyphen runs to one, truncate to 120 characters,
and substitute "article" when nothing remains. -/
def specSlug (t : Text) : Text :=
  let w := intercal ['-'] (splitRuns pyIsSpace ((pyStrip t).map Char.toLower))
  let f := (intercal ['-'] (splitRuns (fun c => c = '-') (w.filter allowedChar))).take 120
  if f = [] then "article".data else f

/-! ## URL resolution (urllib.parse.urljoin, as used by absolutize_urls)

`absolutize_urls` resolves attribute values with `urljoin`. The embedding
follows the CPython implementation for http-style URLs, with the
query/fragment components folded into the path (none of the joined parts
are split off separately); the scheme sets `uses_relative` and
`uses_netloc` are restricted to the schemes this scraper meets: the empty
scheme, `http` and `https`. -/

/-- First character of a URL scheme. -/
def isSchemeStart (c : Char) : Bool := c.isAlpha

/-- Subsequent characters of a URL scheme. -/
def isSchemeChar (c : Char) : Bool :=
  c.isAlpha || c.isDigit || c = '+' || c = '-' || c = '.'

/-- Split a leading `scheme:` off a URL: the text before the first `:`
must be a nonempty run of scheme characters; the scheme is lowercased.
Returns `none` when the URL has no (valid) scheme. -/
def splitScheme (url : Text) : Option (Text × Text) :=
  match subIndex [':'] url with
  | none => none
  | some k =>
    let s := url.take k
    if s ≠ [] ∧ isSchemeStart (s.headD 'a') ∧ s.all isSchemeChar then
      some (s.map Char.toLower, url.drop (k + 1))
    else none

/-- A character that ends the netloc component. -/
def endsNetloc (c : Char) : Bool := c = '/' || c = '?' || c = '#'

/-- Split a leading `//netloc` off the scheme-less remainder of a URL. -/
def splitNetloc (rest : Text) : Text × Text :=
  if leadsWith "//".data rest then
    let r := rest.drop 2
    (r.takeWhile (fun c => !(endsNetloc c)), r.dropWhile (fun c => !(endsNetloc c)))
  else ([], rest)

/-- A URL split into scheme, netloc and path (query and fragment folded
into the path). -/
structure SplitUrl where
  scheme : Text
  netloc : Text
  path : Text
deriving DecidableEq

/-- `urllib.parse.urlsplit` (path, query and fragment folded together). -/
def urlsplit (url : Text) : SplitUrl :=
  match splitScheme url with
  | some (s, rest) =>
    let np := splitNetloc rest
    ⟨s, np.1, np.2⟩
  | none =>
    let np := splitNetloc url
    ⟨[], np.1, np.2⟩

/-- The slash `urlunsplit` places between a netloc and a path that does
not already start with one. -/
def normPath (p : Text) : Text :=
  if p ≠ [] ∧ ¬ leadsWith "/".data p = true then '/' :: p else p

/-- `urllib.parse.urlunsplit`. -/
def urlunsplit (u : SplitUrl) : Text :=
  let url :=
    if u.netloc ≠ [] ∨ leadsWith "//".data u.path = true then
      "//".data ++ u.netloc ++ normPath u.path
    else u.path
  if u.scheme ≠ [] then u.scheme ++ ':' :: url else url

/-- Schemes in the model `uses_relative` and `uses_netloc` sets. -/
def relativeOk (s : Text) : Bool :=
  s = [] || s = "http".data || s = "https".data

/-- `segments[1:-1] = filter(None, segments[1:-1])`: drop empty interior
segments, keeping the first and last. -/
def keepLastFilter : List Text → List Text
  | [] => []
  | [b] => [b]
  | b :: rest => if b = [] then keepLastFilter rest else b :: keepLastFilter rest

/-- Interior-empty-segment filtering applied to a whole segment list. -/
def filterInterior : List Text → List Text
  | [] => []
  | [a] => [a]
  | a :: rest => a :: keepLastFilter rest

/-- The segment resolution loop of `urljoin`: `..` pops, `.` is skipped,
everything else is appended. -/
def segFold (segs : List Text) : List Text :=
  segs.foldl (fun acc s =>
    if s = "..".data then acc.dropLast
    else if s = ".".data then acc
    else acc ++ [s]) []

/-- `urllib.parse.urljoin` for http-style URLs. -/
def urljoin (base url : Text) : Text :=
  if base = [] then url
  else if url = [] then base
  else
    let b := urlsplit base
    let u := urlsplit url
    let uscheme := if (splitScheme url).isSome then u.scheme else b.scheme
    if ¬ (uscheme = b.scheme ∧ relativeOk uscheme) then url
    else if u.netloc ≠ [] then urlunsplit ⟨uscheme, u.netloc, u.path⟩
    else if u.path = [] then urlunsplit ⟨uscheme, b.netloc, b.path⟩
    else
      let baseParts0 := splitOnChar '/' b.path
      let baseParts := if baseParts0.getLastD [] ≠ [] then baseParts0.dropLast else baseParts0
      let segments :=
        if leadsWith "/".data u.path then splitOnChar '/' u.path
        else filterInterior (baseParts ++ splitOnChar '/' u.path)
      let resolved := segFold segments
      let resolved :=
        if segments.getLastD [] = ".".data ∨ segments.getLastD [] = "..".data then
          resolved ++ [[]]
        else resolved
      let joined := intercal "/".data resolved
      urlunsplit ⟨uscheme, b.netloc, if joined = [] then "/".data else joined⟩

/-! ## The content tree and absolutize_urls (scrape_pravenc.py lines 342–371)

The content subtree is an explicit HTML element tree: element name,
attribute list and children. `find_all` iterates the descendants of the
element in document order, so the transform processes each descendant
tag (recursively), and for `audio`/`video` tags additionally rewrites
the `src` of every descendant `source` tag at that moment — those
`source` descendants are then rewritten a second time when their own
turn comes, exactly as in the source. -/

mutual
/-- A node of the parsed HTML tree. -/
inductive HNode where
  | text : Text → HNode
  | elem : (name : String) → (attrs : List (String × Text)) → (children : HList) → HNode
/-- A list of sibling nodes. -/
inductive HList where
  | nil : HList
  | cons : HNode → HList → HList
end

/-- First value bound to attribute `k` (`tag.get`, `tag.has_attr`). -/
def getAttr (attrs : List (String × Text)) (k : String) : Option Text :=
  match attrs with
  | [] => none
  | (k', v) :: rest => if k' = k then some v else getAttr rest k

/-- Set attribute `k` to `v` (`tag[k] = v`). -/
def setAttr (attrs : List (String × Text)) (k : String) (v : Text) : List (String × Text) :=
  match attrs with
  | [] => [(k, v)]
  | (k', v') :: rest => if k' = k then (k, v) :: rest else (k', v') :: setAttr rest k v

/-- Resolve one attribute value: `urljoin` against the base, then wrap in
angle brackets when the absolute URL contains a space. -/
def absolutizeAttr (base u : Text) : Text :=
  let a := urljoin base u
  if occursIn [' '] a then '<' :: (a ++ ['>']) else a

/-- The body of the `find_all` loop for one tag: rewrite `href` of `a`
tags and `src` of `img`/`source`/`audio`/`video` tags when present. -/
def absTag (base : Text) (name : String) (attrs : List (String × Text)) :
    List (String × Text) :=
  if name = "a" then
    match getAttr attrs "href" with
    | some v => setAttr attrs "href" (absolutizeAttr base v)
    | none => attrs
  else if name = "img" ∨ name = "source" ∨ name = "audio" ∨ name = "video" then
    match getAttr attrs "src" with
    | some v => setAttr attrs "src" (absolutizeAttr base v)
    | none => attrs
  else attrs

mutual
/-- Number of nodes of a tree (attribute contents do not count), used as
the termination measure of the traversal. -/
def sizeNode : HNode → Nat
  | .text _ => 1
  | .elem _ _ children => 1 + sizeList children
/-- Number of nodes of a sibling list, padded so that each member is
strictly smaller than the list. -/
def sizeList : HList → Nat
  | .nil => 0
  | .cons n rest => 1 + sizeNode n + sizeList rest
end

mutual
/-- The extra pass `for src in tag.find_all("source")` run when an
`audio`/`video` tag is processed: rewrite the `src` of every descendant
`source` element. The result carries the proof that the pass preserves
the node count. -/
def absSourcesNodeS (base : Text) : (n : HNode) → {m : HNode // sizeNode m = sizeNode n}
  | .text t => ⟨.text t, rfl⟩
  | .elem name attrs children =>
    let attrs' :=
      if name = "source" then
        match getAttr attrs "src" with
        | some v => setAttr attrs "src" (absolutizeAttr base v)
        | none => attrs
      else attrs
    ⟨.elem name attrs' (absSourcesListS base children).1, by
      simp [sizeNode, (absSourcesListS base children).2]⟩
/-- `absSourcesNodeS` over a sibling list. -/
def absSourcesListS (base : Text) : (l : HList) → {m : HList // sizeList m = sizeList l}
  | .nil => ⟨.nil, rfl⟩
  | .cons n rest =>
    ⟨.cons (absSourcesNodeS base n).1 (absSourcesListS base rest).1, by
      simp [sizeList, (absSourcesNodeS base n).2, (absSourcesListS base rest).2]⟩
end

/-- The nested-`source` pass itself. -/
def absSourcesList (base : Text) (l : HList) : HList :=
  (absSourcesListS base l).1

/-- The nested-`source` pass on a single node. -/
def absSourcesNode (base : Text) (n : HNode) : HNode :=
  (absSourcesNodeS base n).1

mutual
/-- Process one descendant tag in document order: rewrite its own
attributes, run the nested-`source` pass for `audio`/`video`, then
recurse into the children. -/
def absNode (base : Text) : HNode → HNode
  | .text t => .text t
  | .elem name attrs children =>
    let attrs' := absTag base name attrs
    let children' :=
      if name = "audio" ∨ name = "video" then absSourcesList base children else children
    .elem name attrs' (absList base children')
termination_by n => sizeNode n
decreasing_by
  simp only [sizeNode]
  split
  · simp only [absSourcesList, (absSourcesListS base children).2]
    omega
  · omega
/-- `absNode` over a sibling list. -/
def absList (base : Text) : HList → HList
  | .nil => .nil
  | .cons n rest => .cons (absNode base n) (absList base rest)
termination_by l => sizeList l
decreasing_by
  · simp only [sizeList]
    omega
  · simp only [sizeList]
    omega
end

/-- `absolutize_urls(element, base_url)`: `find_all` searches only the
descendants of `element`, so the element node itself is untouched and
every descendant is processed. -/
def absolutize_urls (base : Text) : HNode → HNode
  | .text t => .text t
  | .elem name attrs children => .elem name attrs (absList base children)

/-- The URL attribute values of a single tag: its `href` for `a` tags,
its `src` for `img`/`source`/`audio`/`video` tags. -/
def ownUrlAttrs (name : String) (attrs : List (String × Text)) : List Text :=
  if name = "a" then
    match getAttr attrs "href" with
    | some v => [v]
    | none => []
  else if name = "img" ∨ name = "source" ∨ name = "audio" ∨ name = "video" then
    match getAttr attrs "src" with
    | some v => [v]
    | none => []
  else []

mutual
/-- The attribute values that `absolutize_urls` rewrites, in document
order: `href` of `a` tags, `src` of `img`/`source`/`audio`/`video` tags. -/
def urlAttrsNode : HNode → List Text
  | .text _ => []
  | .elem name attrs children => ownUrlAttrs name attrs ++ urlAttrsList children
/-- `urlAttrsNode` over a sibling list. -/
def urlAttrsList : HList → List Text
  | .nil => []
  | .cons n rest => urlAttrsNode n ++ urlAttrsList rest
end

/-- A base URL in canonical absolute http form: nonempty, reassembling
its split is the identity, scheme `http` or `https`, nonempty netloc. -/
def goodBase (base : Text) : Prop :=
  base ≠ [] ∧ urlunsplit (urlsplit base) = base ∧
    ((urlsplit base).scheme = "http".data ∨ (urlsplit base).scheme = "https".data) ∧
    (urlsplit base).netloc ≠ []

/-! # Theorems -/

/-! ## String helper lemmas -/

theorem leadsWith_append_self (p t : Text) : leadsWith p (p ++ t) = true := by
  induction p with
  | nil => rfl
  | cons a q ih => simp [leadsWith, ih]

theorem leadsWith_of_append {p s : Text} (t : Text) (h : leadsWith p s = true) :
    leadsWith p (s ++ t) = true := by
  induction p generalizing s with
  | nil => rfl
  | cons a q ih =>
    cases s with
    | nil => simp [leadsWith] at h
    | cons c cs =>
      simp only [leadsWith, Bool.and_eq_true, beq_iff_eq] at h
      simp only [List.cons_append, leadsWith, Bool.and_eq_true, beq_iff_eq]
      exact ⟨h.1, ih h.2⟩

theorem occursIn_of_leadsWith {p s : Text} (h : leadsWith p s = true) :
    occursIn p s = true := by
  cases s with
  | nil =>
    cases p with
    | nil => rfl
    | cons a q => simp [leadsWith] at h
  | cons c cs => simp [occursIn, h]

theorem occursIn_append_right {p t : Text} (s : Text) (h : occursIn p t = true) :
    occursIn p (s ++ t) = true := by
  induction s with
  | nil => simpa
  | cons c cs ih => simp [occursIn, ih]

theorem occursIn_append_left {p s : Text} (t : Text) (h : occursIn p s = true) :
    occursIn p (s ++ t) = true := by
  induction s with
  | nil =>
    simp only [occursIn, beq_iff_eq] at h
    subst h
    cases t with
    | nil => rfl
    | cons c cs => simp [occursIn, leadsWith]
  | cons c cs ih =>
    simp only [occursIn, Bool.or_eq_true] at h
    rcases h with h | h
    · simp only [List.cons_append, occursIn, Bool.or_eq_true]
      exact Or.inl (leadsWith_of_append t h)
    · simp only [List.cons_append, occursIn, Bool.or_eq_true]
      exact Or.inr (ih h)

theorem occursIn_sandwich (p a b : Text) : occursIn p (a ++ (p ++ b)) = true :=
  occursIn_append_right a (occursIn_of_leadsWith (leadsWith_append_self p b))

theorem leadsWith_cons_ex {a : Char} {p s : Text} (h : leadsWith (a :: p) s = true) :
    ∃ cs, s = a :: cs ∧ leadsWith p cs = true := by
  cases s with
  | nil => simp [leadsWith] at h
  | cons c cs =>
    simp only [leadsWith, Bool.and_eq_true, beq_iff_eq] at h
    exact ⟨cs, by rw [h.1], h.2⟩

/-! ## C7: batch run counts and exit code -/

theorem batch_counts (outcomes : List UrlOutcome) :
    ∀ s f : Nat,
      (outcomes.foldl batchStep (s, f)).1 + (outcomes.foldl batchStep (s, f)).2 =
        s + f + outcomes.length := by
  induction outcomes with
  | nil => intro s f; simp
  | cons o t ih =>
    intro s f
    cases o with
    | ret code =>
      cases code with
      | zero => simpa [batchStep] using by rw [ih (s + 1) f]; omega
      | succ k => simpa [batchStep] using by rw [ih s (f + 1)]; omega
    | exc => simpa [batchStep] using by rw [ih s (f + 1)]; omega

/-- C7: every URL of a batch run is attempted and counted exactly once, so
`successful + failed = total`; the exit code is 0 when nothing failed and
1 otherwise; in particular a run over 3 URLs whose 2nd fails records
`successful = 2, failed = 1, total = 3` and exits with code 1. -/
theorem c7_batch_run (outcomes : List UrlOutcome) :
    (process_urls_from_file outcomes).1 + (process_urls_from_file outcomes).2.1 =
        outcomes.length ∧
    ((process_urls_from_file outcomes).2.1 = 0 →
      (process_urls_from_file outcomes).2.2 = 0) ∧
    (0 < (process_urls_from_file outcomes).2.1 →
      (process_urls_from_file outcomes).2.2 = 1) ∧
    process_urls_from_file [.ret 0, .ret 1, .ret 0] = (2, 1, 1) := by
  refine ⟨?_, ?_, ?_, by decide⟩
  · simpa [process_urls_from_file] using batch_counts outcomes 0 0
  · intro h
    simp [process_urls_from_file] at h ⊢
    simp [h]
  · intro h
    have hne : ((outcomes.foldl batchStep (0, 0)).2 = 0) = False := by
      simp only [process_urls_from_file] at h
      simp only [eq_iff_iff, iff_false]
      omega
    simp only [process_urls_from_file, hne, if_false]

/-- Witness for C7 at a concrete batch: the three-URL scenario. -/
theorem c7_batch_run_witness :
    (process_urls_from_file [.ret 0, .ret 1, .ret 0]).1 +
        (process_urls_from_file [.ret 0, .ret 1, .ret 0]).2.1 = 3 ∧
    (process_urls_from_file [.ret 0, .ret 1, .ret 0]).2.2 = 1 :=
  ⟨(c7_batch_run [.ret 0, .ret 1, .ret 0]).1,
    (c7_batch_run [.ret 0, .ret 1, .ret 0]).2.2.1 (by decide)⟩

/-! ## C2: reference heading level -/

theorem filterMap_filter_fuse (p : α → Bool) (f : α → Option β) (l : List α) :
    (l.filter p).filterMap f = l.filterMap (fun a => if p a = true then f a else none) := by
  induction l with
  | nil => rfl
  | cons a t ih =>
    by_cases h : p a = true
    · simp [List.filter_cons, h, List.filterMap_cons, ih]
    · simp only [Bool.not_eq_true] at h
      simp [List.filter_cons, h, List.filterMap_cons, ih]

theorem heading_parse_point (n : Text) :
    (if isHeadingTag n = true then
      (if n ≠ [] ∧ leadsWith "h".data n = true ∧ n.drop 1 ≠ [] ∧ (n.drop 1).all Char.isDigit then
        some (digitsToNat (n.drop 1))
      else none)
    else none) = tagLevel n := by
  by_cases h1 : n = "h1".data
  · subst h1; decide
  by_cases h2 : n = "h2".data
  · subst h2; decide
  by_cases h3 : n = "h3".data
  · subst h3; decide
  by_cases h4 : n = "h4".data
  · subst h4; decide
  by_cases h5 : n = "h5".data
  · subst h5; decide
  by_cases h6 : n = "h6".data
  · subst h6; decide
  have ht : isHeadingTag n = false := by
    simp only [isHeadingTag, if_neg h1, if_neg h2, if_neg h3, if_neg h4, if_neg h5, if_neg h6]
  have htl : tagLevel n = none := by
    simp only [tagLevel, if_neg h1, if_neg h2, if_neg h3, if_neg h4, if_neg h5, if_neg h6]
  simp [ht, htl]

theorem heading_levels_eq (body : List Text) : heading_levels body = levelsPresent body := by
  unfold heading_levels levelsPresent
  rw [filterMap_filter_fuse]
  exact List.filterMap_congr (fun n _ => heading_parse_point n)

/-- C2: the heading level used for inserted reference headings is
`min(levels of the h1–h6 headings present in the body) + 1`, clamped to
6, and is 1 when the body has no headings. -/
theorem c2_reference_level (body : List Text) :
    (levelsPresent body = [] → reference_level body = 1) ∧
    (∀ m, (levelsPresent body).min? = some m → reference_level body = min (m + 1) 6) := by
  constructor
  · intro h
    simp [reference_level, heading_levels_eq, h]
  · intro m hm
    simp [reference_level, heading_levels_eq, hm]

/-- Witness for C2: a body with headings at levels 2 and 3 gets reference
level 3; a body with no headings gets level 1. -/
theorem c2_reference_level_witness :
    reference_level ["h2".data, "p".data, "h3".data] = min (2 + 1) 6 ∧
    reference_level ["div".data, "p".data] = 1 :=
  ⟨(c2_reference_level ["h2".data, "p".data, "h3".data]).2 2 (by decide),
    (c2_reference_level ["div".data, "p".data]).1 (by decide)⟩

/-! ## C3: author extraction -/

theorem foldl_append_flatten {α β : Type} (g : α → List β) (l : List α) :
    ∀ acc : List β, l.foldl (fun a x => a ++ g x) acc = acc ++ (l.map g).flatten := by
  induction l with
  | nil => intro acc; simp
  | cons x t ih => intro acc; simp [ih, List.append_assoc]

theorem all_authors_eq_flatten (authorEls : List (List Text)) :
    all_authors authorEls = (authorEls.map authorPieces).flatten := by
  simpa [all_authors] using foldl_append_flatten authorPieces authorEls []

theorem dedup_foldl_eq (l : List Text) :
    ∀ uniq seen, (l.foldl dedupStep (uniq, seen)).1 = uniq ++ dedupRecE seen l := by
  induction l with
  | nil => intro u s; simp [dedupRecE]
  | cons a t ih =>
    intro u s
    by_cases h : a ≠ [] ∧ a ∉ s
    · simp [List.foldl_cons, dedupStep, h, dedupRecE, ih, List.append_assoc]
    · simp [List.foldl_cons, dedupStep, h, dedupRecE, ih]

theorem dedupRecE_eq_filter (l : List Text) :
    ∀ seen, dedupRecE seen l = firstSeenDedup seen (l.filter (fun a => a ≠ [])) := by
  induction l with
  | nil => intro seen; rfl
  | cons a t ih =>
    intro seen
    by_cases ha : a = []
    · subst ha
      simp [dedupRecE, List.filter_cons, ih]
    · by_cases hs : a ∈ seen
      · simp [dedupRecE, ha, hs, List.filter_cons, ih, firstSeenDedup]
      · simp [dedupRecE, ha, hs, List.filter_cons, ih, firstSeenDedup]

theorem dedupRecE_nodup (l : List Text) :
    ∀ seen, (dedupRecE seen l).Nodup ∧ ∀ a ∈ dedupRecE seen l, a ∉ seen := by
  induction l with
  | nil => intro seen; simp [dedupRecE]
  | cons a t ih =>
    intro seen
    by_cases h : a ≠ [] ∧ a ∉ seen
    · obtain ⟨hn, hmem⟩ := ih (a :: seen)
      simp only [dedupRecE, if_pos h]
      constructor
      · exact List.nodup_cons.mpr
          ⟨fun hc => (hmem a hc) (List.mem_cons_self a seen), hn⟩
      · intro x hx
        rcases List.mem_cons.mp hx with hx | hx
        · subst hx; exact h.2
        · intro hxs
          exact (hmem x hx) (List.mem_cons_of_mem a hxs)
    · simp only [dedupRecE, if_neg h]
      exact ih seen

theorem authorPieces_filter (el : List Text) :
    (authorPieces el).filter (fun a => a ≠ []) =
      ((splitOnChar ',' (getTextStrip el)).map pyStrip).filter (fun a => a ≠ []) := by
  by_cases h : getTextStrip el = []
  · simp only [authorPieces, h, ne_eq, not_true_eq_false, if_false, List.filter_nil]
    rw [show splitOnChar ',' ([] : Text) = [[]] from rfl]
    rfl
  · simp [authorPieces, h]

theorem all_authors_filter_eq (authorEls : List (List Text)) :
    (all_authors authorEls).filter (fun a => a ≠ []) = specAuthorPieces authorEls := by
  rw [all_authors_eq_flatten]
  unfold specAuthorPieces
  induction authorEls with
  | nil => rfl
  | cons el t ih =>
    simp only [List.map_cons, List.flatten_cons, List.filter_append, ih,
      authorPieces_filter]

/-- C3: the extracted author list deduplicates, across all author nodes,
the comma-split and trimmed nonempty names, keeping first occurrences in
order; it contains no duplicates, and `author_html` joins it with a
comma and space. -/
theorem c3_authors (authorEls : List (List Text)) :
    (unique_authors authorEls).Nodup ∧
    unique_authors authorEls = firstSeenDedup [] (specAuthorPieces authorEls) ∧
    author_html authorEls = intercal ", ".data (unique_authors authorEls) := by
  have e1 : unique_authors authorEls = dedupRecE [] (all_authors authorEls) := by
    simpa [unique_authors] using dedup_foldl_eq (all_authors authorEls) [] []
  refine ⟨?_, ?_, rfl⟩
  · rw [e1]
    exact (dedupRecE_nodup (all_authors authorEls) []).1
  · rw [e1, dedupRecE_eq_filter, all_authors_filter_eq]

/-! ## C1: reference-block category titles and marker stripping -/

theorem leadsWith_first_distinct {a b : Char} {p q : Text} {s : Text}
    (hab : a ≠ b) (h : leadsWith (a :: p) s = true) :
    leadsWith (b :: q) s = false := by
  obtain ⟨cs, rfl, -⟩ := leadsWith_cons_ex h
  cases h2 : leadsWith (b :: q) (a :: cs) with
  | false => rfl
  | true =>
    obtain ⟨cs2, heq, -⟩ := leadsWith_cons_ex h2
    injection heq with h1 _
    exact absurd h1 hab

theorem sochPfx_eq : sochPfx = 'С' :: "оч.:".data := by decide

theorem istPfx_eq : istPfx = 'И' :: "ст.:".data := by decide

theorem litPfx_eq : litPfx = 'Л' :: "ит.:".data := by decide

/-- C1 fails as stated: in this reference block the marker "Соч.:" occurs
twice, the block is recognised (title "Сочинения"), yet the marker still
occurs in the processed text content, so it is not true that the marker
never appears in the rendered fragment. -/
theorem c1_claim_counterexample :
    leadsWith sochPfx (getTextStrip ["Соч.: А Соч.: Б".data]) = true ∧
    (process_reference ["Соч.: А Соч.: Б".data]).1 = "Сочинения".data ∧
    occursIn sochPfx ((process_reference ["Соч.: А Соч.: Б".data]).2.flatten) = true := by
  decide

/-- C1 amended: when the trimmed visible text of a reference block starts
with "Соч.:", "Ист.:" or "Лит.:", the emitted category title is exactly
"Сочинения", "Источники" or "Литература" respectively, and the marker is
stripped per text node (every text node whose own stripped text starts
with the marker is replaced by that stripped text with its first five
characters removed). In particular, for a block of a single text node the
processed content is the node stripped of the marker, and when the marker
occurs nowhere else in it, the marker does not appear in the processed
text content. -/
theorem c1_amended (nodes : List Text) (t : Text) :
    (leadsWith sochPfx (getTextStrip nodes) = true →
      (process_reference nodes).1 = "Сочинения".data ∧
      (process_reference nodes).2 = stripPfxNodes sochPfx nodes) ∧
    (leadsWith istPfx (getTextStrip nodes) = true →
      (process_reference nodes).1 = "Источники".data ∧
      (process_reference nodes).2 = stripPfxNodes istPfx nodes) ∧
    (leadsWith litPfx (getTextStrip nodes) = true →
      (process_reference nodes).1 = "Литература".data ∧
      (process_reference nodes).2 = stripPfxNodes litPfx nodes) ∧
    (∀ p, (p = sochPfx ∨ p = istPfx ∨ p = litPfx) →
      leadsWith p (pyStrip t) = true →
      (process_reference [t]).2 = [(pyStrip t).drop 5] ∧
      (occursIn p ((pyStrip t).drop 5) = false →
        occursIn p ((process_reference [t]).2.flatten) = false)) := by
  have hts : getTextStrip [t] = pyStrip t := by simp [getTextStrip]
  refine ⟨?_, ?_, ?_, ?_⟩
  · intro h
    simp only [process_reference, if_pos h]
    exact ⟨trivial, trivial⟩
  · intro h
    have hns : leadsWith sochPfx (getTextStrip nodes) = false := by
      rw [sochPfx_eq]
      exact leadsWith_first_distinct (by decide) (istPfx_eq ▸ h)
    simp only [process_reference, hns, Bool.false_eq_true, if_false, if_pos h]
    exact ⟨trivial, trivial⟩
  · intro h
    have hns : leadsWith sochPfx (getTextStrip nodes) = false := by
      rw [sochPfx_eq]
      exact leadsWith_first_distinct (by decide) (litPfx_eq ▸ h)
    have hni : leadsWith istPfx (getTextStrip nodes) = false := by
      rw [istPfx_eq]
      exact leadsWith_first_distinct (by decide) (litPfx_eq ▸ h)
    simp only [process_reference, hns, hni, Bool.false_eq_true, if_false, if_pos h]
    exact ⟨trivial, trivial⟩
  · intro p hp hlead
    have hsnd : (process_reference [t]).2 = [(pyStrip t).drop 5] := by
      rcases hp with rfl | rfl | rfl
      · have h : leadsWith sochPfx (getTextStrip [t]) = true := by rw [hts]; exact hlead
        simp only [process_reference, if_pos h, stripPfxNodes, List.map_cons, List.map_nil,
          if_pos hlead]
      · have h : leadsWith istPfx (getTextStrip [t]) = true := by rw [hts]; exact hlead
        have hns : leadsWith sochPfx (getTextStrip [t]) = false := by
          rw [sochPfx_eq]
          exact leadsWith_first_distinct (by decide) (istPfx_eq ▸ h)
        simp only [process_reference, hns, Bool.false_eq_true, if_false, if_pos h,
          stripPfxNodes, List.map_cons, List.map_nil, if_pos hlead]
      · have h : leadsWith litPfx (getTextStrip [t]) = true := by rw [hts]; exact hlead
        have hns : leadsWith sochPfx (getTextStrip [t]) = false := by
          rw [sochPfx_eq]
          exact leadsWith_first_distinct (by decide) (litPfx_eq ▸ h)
        have hni : leadsWith istPfx (getTextStrip [t]) = false := by
          rw [istPfx_eq]
          exact leadsWith_first_distinct (by decide) (litPfx_eq ▸ h)
        simp only [process_reference, hns, hni, Bool.false_eq_true, if_false, if_pos h,
          stripPfxNodes, List.map_cons, List.map_nil, if_pos hlead]
    refine ⟨hsnd, ?_⟩
    intro hocc
    rw [hsnd]
    simpa using hocc

/-- Witness for C1 amended: an "Ист.:" block is titled "Источники"; a
one-node "Соч.: АБВ" block has the marker stripped and no longer
contains it. -/
theorem c1_amended_witness :
    (process_reference ["Ист.: Труды".data]).1 = "Источники".data ∧
    (process_reference ["Соч.: АБВ".data]).2 = [" АБВ".data] ∧
    occursIn sochPfx ((process_reference ["Соч.: АБВ".data]).2.flatten) = false := by
  refine ⟨((c1_amended ["Ист.: Труды".data] []).2.1 (by decide)).1, ?_, ?_⟩
  · have h := (c1_amended [] "Соч.: АБВ".data).2.2.2 sochPfx (Or.inl rfl) (by decide)
    rw [h.1]
    decide
  · have h := (c1_amended [] "Соч.: АБВ".data).2.2.2 sochPfx (Or.inl rfl) (by decide)
    exact h.2 (by decide)

/-! ## C8: listing crawl stops at the first 404 -/

theorem crawl_until_404 (pages : Nat → PageResult) (N : Nat) :
    ∀ ps : List Nat, ps.Pairwise (· < ·) → N ∈ ps → pages N = PageResult.notFound →
      (∀ p ∈ ps, p < N → pages p ≠ PageResult.notFound) →
      crawlPages pages ps =
        ((ps.filter (fun p => p < N)).map (fun p => pageOkUrls (pages p))).flatten := by
  intro ps
  induction ps with
  | nil => intro _ hN; simp at hN
  | cons p rest ih =>
    intro hpw hN h404 hbefore
    have hpw2 := List.pairwise_cons.mp hpw
    by_cases hpN : p = N
    · subst hpN
      have hf : List.filter (fun q => decide (q < p)) rest = [] := by
        apply List.filter_eq_nil_iff.mpr
        intro q hq
        have := hpw2.1 q hq
        simp
        omega
      simp [crawlPages, h404, List.filter_cons, hf]
    · have hNrest : N ∈ rest := by
        rcases List.mem_cons.mp hN with h | h
        · exact absurd h.symm hpN
        · exact h
      have hpltN : p < N := hpw2.1 N hNrest
      have hne : pages p ≠ PageResult.notFound :=
        hbefore p (List.mem_cons_self _ _) hpltN
      have ih' := ih hpw2.2 hNrest h404 (fun q hq => hbefore q (List.mem_cons_of_mem _ hq))
      cases hpg : pages p with
      | ok urls => simp [crawlPages, hpg, ih', List.filter_cons, hpltN, pageOkUrls]
      | notFound => exact absurd hpg hne
      | httpErr => simp [crawlPages, hpg, ih', List.filter_cons, hpltN, pageOkUrls]
      | excErr => simp [crawlPages, hpg, ih', List.filter_cons, hpltN, pageOkUrls]

/-- C8: when page `N` of the crawled range is the first to return HTTP
404, the crawl stops there and the saved output is exactly the
first-seen deduplication of the URLs accumulated from the pages before
`N`; pages before `N` that fail with other errors contribute nothing but
do not stop the crawl. -/
theorem c8_listing_crawl (pages : Nat → PageResult) (startPage endPage N : Nat)
    (hN : N ∈ pageRange startPage endPage)
    (h404 : pages N = PageResult.notFound)
    (hbefore : ∀ p ∈ pageRange startPage endPage, p < N → pages p ≠ PageResult.notFound) :
    extract_all_article_urls pages startPage endPage =
      dedupUrls ((((pageRange startPage endPage).filter (fun p => p < N)).map
        (fun p => pageOkUrls (pages p))).flatten) := by
  unfold extract_all_article_urls
  rw [crawl_until_404 pages N (pageRange startPage endPage)
    (List.pairwise_lt_range' startPage (endPage + 1 - startPage)) hN h404 hbefore]

/-- Witness for C8: crawling pages 1–3 where page 2 returns 404 saves
exactly the URLs of page 1. -/
theorem c8_listing_crawl_witness :
    extract_all_article_urls
      (fun p => if p = 2 then PageResult.notFound else PageResult.ok ["u".data, "u".data]) 1 3 =
      ["u".data] := by
  rw [c8_listing_crawl
    (fun p => if p = 2 then PageResult.notFound else PageResult.ok ["u".data, "u".data])
    1 3 2 (by decide) (by decide) (by decide)]
  decide

/-! ## C10: empty code sequences delete the reference -/

/-- C10: a glyph-image reference whose code sequence is empty after
removing "/image.png" and stripping whitespace is replaced by the empty
string — no span, no placeholder; in particular the whole reference
`![](<https://pravenc.ru/char/26526//image.png>)` is deleted. -/
theorem c10_empty_sequence (m : List (Text × Text)) (ct codeSeq : Text)
    (h : pyStrip (replaceAllSub "/image.png".data [] codeSeq) = []) :
    replace_image m ct codeSeq = [] ∧
    convert_church_slavonic_images []
      "![](<https://pravenc.ru/char/26526//image.png>)".data = [] := by
  refine ⟨?_, by decide⟩
  simp [replace_image, h]

/-- Witness for C10: the sequence "/image.png" cleans to the empty
sequence and the reference is replaced by the empty string. -/
theorem c10_empty_sequence_witness :
    replace_image [] "26526".data "/image.png".data = [] ∧
    convert_church_slavonic_images []
      "![](<https://pravenc.ru/char/26526//image.png>)".data = [] :=
  c10_empty_sequence [] "26526".data "/image.png".data (by decide)

/-! ## C6: mapped token sequences with interior whitespace -/

/-- C6: the reference carrying the sequence "x010 x0a2", under the
mapping sending x010 to "ⷣ" and x0a2 to "҇", is replaced by the mapped
characters wrapped in a span of class "cu", with the literal space
between the tokens preserved. -/
theorem c6_sequence_with_space :
    convert_church_slavonic_images [("x010".data, "ⷣ".data), ("x0a2".data, "҇".data)]
      "![](<https://pravenc.ru/char/26528/x010 x0a2>)".data =
      "<span class=\"cu\">ⷣ ҇</span>".data := by decide

/-! ## C5: unmapped tokens -/

/-- C5 fails as stated: "xZZZ" is not a hex token (Z is not a hex digit),
so the substitution emits the raw text "xZZZ" inside the span, not the
bracketed "[xZZZ]" the claim promises. -/
theorem c5_claim_counterexample :
    convert_church_slavonic_images [] "![](<https://pravenc.ru/char/26526/xZZZ>)".data =
      "<span class=\"cu\">xZZZ</span>".data ∧
    occursIn "[xZZZ]".data
      (convert_church_slavonic_images [] "![](<https://pravenc.ru/char/26526/xZZZ>)".data) =
      false := by decide

theorem buildResult_bracket (m : List (Text × Text)) (chunk : Text)
    (hm : pyLookup m chunk = none) :
    ∀ (chunks : List Text) (remaining : Text), chunk ∈ chunks →
      occursIn ('[' :: (chunk ++ [']'])) (buildResult m chunks remaining) = true := by
  intro chunks
  induction chunks with
  | nil => intro r h; simp at h
  | cons c rest ih =>
    intro r hmem
    rcases List.mem_cons.mp hmem with rfl | hmem
    · cases hs : subIndex chunk r with
      | some p =>
        simp only [buildResult, hs, mappedOf, hm]
        rw [List.append_assoc]
        exact occursIn_sandwich _ _ _
      | none =>
        simp only [buildResult, hs, mappedOf, hm]
        exact occursIn_of_leadsWith (leadsWith_append_self _ _)
    · cases hs : subIndex c r with
      | some p =>
        simp only [buildResult, hs]
        rw [List.append_assoc]
        exact occursIn_append_right _ (occursIn_append_right _ (ih _ hmem))
      | none =>
        simp only [buildResult, hs]
        exact occursIn_append_right _ (ih _ hmem)

/-- C5 amended: every hex token — an `x` followed by two or three hex
digits, as found by the scanner — that is absent from the mapping is
emitted as the bracketed literal `[token]` inside the substituted span,
never deleted; a token-like string with non-hex letters such as "xZZZ"
is not recognised as a token and is passed through literally. -/
theorem c5_amended (m : List (Text × Text)) (ct codeSeq chunk : Text)
    (hc : chunk ∈ findChunks (pyStrip (replaceAllSub "/image.png".data [] codeSeq)))
    (hm : pyLookup m chunk = none) :
    occursIn ('[' :: (chunk ++ [']'])) (replace_image m ct codeSeq) = true ∧
    convert_church_slavonic_images [] "![](<https://pravenc.ru/char/26526/xZZZ>)".data =
      "<span class=\"cu\">xZZZ</span>".data := by
  refine ⟨?_, by decide⟩
  have hs : pyStrip (replaceAllSub "/image.png".data [] codeSeq) ≠ [] := by
    intro h
    rw [h] at hc
    simp [findChunks, findChunksGo] at hc
  simp only [replace_image, if_neg hs]
  apply occursIn_append_left
  apply occursIn_append_right
  exact buildResult_bracket m chunk hm _ _ hc

/-- Witness for C5 amended: the unmapped hex token "x0ff" is emitted as
"[x0ff]". -/
theorem c5_amended_witness :
    occursIn ('[' :: ("x0ff".data ++ [']']))
      (replace_image [] "26526".data "x0ff".data) = true ∧
    convert_church_slavonic_images [] "![](<https://pravenc.ru/char/26526/xZZZ>)".data =
      "<span class=\"cu\">xZZZ</span>".data :=
  c5_amended [] "26526".data "x0ff".data "x0ff".data (by decide) (by decide)

/-! ## C9: output basenames -/

theorem collapseRunsGo_all {p q : Char → Bool} {r : Char} (hq : q r = true) :
    ∀ (fuel : Nat) (s : Text), s.all q = true → (collapseRunsGo p r fuel s).all q = true := by
  intro fuel
  induction fuel with
  | zero =>
    intro s hs
    cases s with
    | nil => simp [collapseRunsGo]
    | cons c rest => simpa [collapseRunsGo] using hs
  | succ n ih =>
    intro s hs
    cases s with
    | nil => simp [collapseRunsGo]
    | cons c rest =>
      have hrest : rest.all q = true := by
        simp only [List.all_cons, Bool.and_eq_true] at hs
        exact hs.2
      by_cases hpc : p c = true
      · have hdw : (rest.dropWhile p).all q = true := by
          rw [List.all_eq_true] at hrest ⊢
          exact fun x hx => hrest x ((List.dropWhile_sublist p).subset hx)
        simp [collapseRunsGo, hpc, hq, ih _ hdw]
      · have hc : q c = true := by
          simp only [List.all_cons, Bool.and_eq_true] at hs
          exact hs.1
        simp [collapseRunsGo, hpc, hc, ih _ hrest]

theorem sanitize_filename_props (t : Text) :
    (sanitize_filename t).all allowedChar = true ∧
    (sanitize_filename t).length ≤ 120 ∧ sanitize_filename t ≠ [] := by
  have hu : sanitize_filename t =
      (if (collapseRuns (fun c => c = '-') '-'
            ((collapseRuns pyIsSpace '-' ((pyStrip t).map Char.toLower)).filter
              allowedChar)).take 120 = [] then
        "article".data
      else
        (collapseRuns (fun c => c = '-') '-'
          ((collapseRuns pyIsSpace '-' ((pyStrip t).map Char.toLower)).filter
            allowedChar)).take 120) := rfl
  have h3 : ((collapseRuns pyIsSpace '-' ((pyStrip t).map Char.toLower)).filter
      allowedChar).all allowedChar = true := by
    rw [List.all_eq_true]
    intro x hx
    exact (List.mem_filter.mp hx).2
  have h4 : (collapseRuns (fun c => c = '-') '-'
      ((collapseRuns pyIsSpace '-' ((pyStrip t).map Char.toLower)).filter
        allowedChar)).all allowedChar = true :=
    collapseRunsGo_all (by decide) _ _ h3
  rw [hu]
  by_cases h : (collapseRuns (fun c => c = '-') '-'
      ((collapseRuns pyIsSpace '-' ((pyStrip t).map Char.toLower)).filter
        allowedChar)).take 120 = []
  · rw [if_pos h]
    refine ⟨by decide, by decide, by decide⟩
  · rw [if_neg h]
    refine ⟨?_, ?_, h⟩
    · rw [List.all_eq_true]
      intro x hx
      exact List.all_eq_true.mp h4 x (List.take_subset _ _ hx)
    · rw [List.length_take]
      exact Nat.min_le_left _ _

theorem beq_false_of_digit {c d : Char} (hc : Char.isDigit c = true)
    (hd : Char.isDigit d = false) : (d == c) = false := by
  cases h : d == c with
  | false => rfl
  | true =>
    have he : d = c := eq_of_beq h
    rw [he, hc] at hd
    cases hd

theorem digitSuffix_append (A D : Text) (hD : D ≠ []) (hdig : D.all Char.isDigit = true) :
    digitSuffix (A ++ '/' :: D) = D := by
  unfold digitSuffix
  rw [List.reverse_append, List.reverse_cons, List.append_assoc]
  rw [List.takeWhile_append_of_pos
    (fun a ha => List.all_eq_true.mp hdig a (List.mem_reverse.mp ha))]
  rw [show (['/'] ++ A.reverse : Text).takeWhile Char.isDigit = [] from by
    simp [List.takeWhile_cons]]
  simp

theorem trailsWith_html_false (A D : Text) (hD : D ≠ [])
    (hdig : D.all Char.isDigit = true) :
    trailsWith ".html".data (A ++ '/' :: D) = false := by
  have hrev : (A ++ '/' :: D).reverse = D.reverse ++ '/' :: A.reverse := by
    rw [List.reverse_append, List.reverse_cons, List.append_assoc]
    rfl
  obtain ⟨d, Dr, hDr⟩ := List.exists_cons_of_ne_nil
    (show D.reverse ≠ [] by simpa using hD)
  have hd : Char.isDigit d = true := by
    have : d ∈ D.reverse := by rw [hDr]; exact List.mem_cons_self _ _
    exact List.all_eq_true.mp hdig d (List.mem_reverse.mp this)
  unfold trailsWith
  rw [hrev, hDr,
    show (".html".data : Text).reverse = 'l' :: "mth.".data from by decide]
  simp only [List.cons_append, leadsWith, Bool.and_eq_false_iff]
  left
  exact beq_false_of_digit hd (by decide)

theorem numericId_slash_digits (A D : Text) (hD : D ≠ [])
    (hdig : D.all Char.isDigit = true) :
    numericId (A ++ '/' :: D) = some D := by
  have ht := trailsWith_html_false A D hD hdig
  have hsplit : A ++ '/' :: D = (A ++ ['/']) ++ D := by simp
  have hlen : (A ++ '/' :: D).length - D.length = A.length + 1 := by
    simp only [List.length_append, List.length_cons]
    omega
  have htake : (A ++ '/' :: D).take (A.length + 1) = A ++ ['/'] := by
    rw [hsplit]
    exact List.take_left' (by simp)
  simp only [numericId, ht, Bool.false_eq_true, if_false]
  rw [digitSuffix_append A D hD hdig, hlen, htake]
  rw [if_pos ⟨hD, List.getLast?_concat _⟩]

theorem numericId_html (A D : Text) (hD : D ≠ [])
    (hdig : D.all Char.isDigit = true) :
    numericId ((A ++ '/' :: D) ++ ".html".data) = some D := by
  have ht : trailsWith ".html".data ((A ++ '/' :: D) ++ ".html".data) = true := by
    unfold trailsWith
    rw [List.reverse_append]
    exact leadsWith_append_self _ _
  have hcore : ((A ++ '/' :: D) ++ ".html".data).take
      (((A ++ '/' :: D) ++ ".html".data).length - 5) = A ++ '/' :: D := by
    rw [List.length_append, show (".html".data : Text).length = 5 from by decide,
      Nat.add_sub_cancel]
    exact List.take_left _ _
  have hsplit : A ++ '/' :: D = (A ++ ['/']) ++ D := by simp
  have hlen : (A ++ '/' :: D).length - D.length = A.length + 1 := by
    simp only [List.length_append, List.length_cons]
    omega
  have htake : (A ++ '/' :: D).take (A.length + 1) = A ++ ['/'] := by
    rw [hsplit]
    exact List.take_left' (by simp)
  simp only [numericId, ht, if_true]
  rw [hcore, digitSuffix_append A D hD hdig, hlen, htake]
  rw [if_pos ⟨hD, List.getLast?_concat _⟩]

theorem numericId_some_ne_nil {url ds : Text} (h : numericId url = some ds) :
    ds ≠ [] := by
  simp only [numericId] at h
  split_ifs at h with h1 h2 h3
  · injection h with h4
    rw [← h4]
    exact h2.1
  · injection h with h4
    rw [← h4]
    exact h3.1

theorem splitRunsGo_ne_nil (p : Char → Bool) (fuel : Nat) (s : Text) :
    splitRunsGo p fuel s ≠ [] := by
  cases fuel with
  | zero => cases s <;> simp [splitRunsGo]
  | succ fuel =>
    cases s with
    | nil => simp [splitRunsGo]
    | cons c rest =>
      cases h : p c with
      | true => simp [splitRunsGo, h]
      | false =>
        simp only [splitRunsGo, h, Bool.false_eq_true, if_false]
        cases splitRunsGo p fuel rest <;> simp

theorem intercal_cons_head (sep : Text) (c : Char) (h : Text) (t : List Text) :
    intercal sep ((c :: h) :: t) = c :: intercal sep (h :: t) := by
  cases t <;> rfl

theorem collapseRunsGo_join (p : Char → Bool) (r : Char) :
    ∀ (fuel : Nat) (s : Text), s.length ≤ fuel →
      collapseRunsGo p r fuel s = intercal [r] (splitRunsGo p fuel s) := by
  intro fuel
  induction fuel with
  | zero =>
    intro s hs
    have h0 : s = [] := List.eq_nil_of_length_eq_zero (Nat.le_zero.mp hs)
    subst h0
    rfl
  | succ fuel ih =>
    intro s hs
    cases s with
    | nil => rfl
    | cons c rest =>
      have hr : rest.length ≤ fuel := by simpa using hs
      cases h : p c with
      | true =>
        have hd : (rest.dropWhile p).length ≤ fuel :=
          le_trans (List.dropWhile_sublist p).length_le hr
        obtain ⟨a, l, hsp⟩ : ∃ a l, splitRunsGo p fuel (rest.dropWhile p) = a :: l := by
          cases hsp : splitRunsGo p fuel (rest.dropWhile p) with
          | nil => exact absurd hsp (splitRunsGo_ne_nil p fuel _)
          | cons a l => exact ⟨a, l, rfl⟩
        simp only [collapseRunsGo, splitRunsGo, h, if_true]
        rw [ih _ hd, hsp]
        rfl
      | false =>
        obtain ⟨a, l, hsp⟩ : ∃ a l, splitRunsGo p fuel rest = a :: l := by
          cases hsp : splitRunsGo p fuel rest with
          | nil => exact absurd hsp (splitRunsGo_ne_nil p fuel _)
          | cons a l => exact ⟨a, l, rfl⟩
        simp only [collapseRunsGo, splitRunsGo, h, Bool.false_eq_true, if_false]
        rw [hsp]
        show c :: collapseRunsGo p r fuel rest = intercal [r] ((c :: a) :: l)
        rw [intercal_cons_head, ← hsp, ← ih _ hr]

theorem collapseRuns_join (p : Char → Bool) (r : Char) (t : Text) :
    collapseRuns p r t = intercal [r] (splitRuns p t) :=
  collapseRunsGo_join p r t.length t le_rfl

theorem sanitize_filename_eq_specSlug (t : Text) :
    sanitize_filename t = specSlug t := by
  simp only [sanitize_filename, specSlug, collapseRuns_join]

theorem splitOnChar_ne_nil (sep : Char) (t : Text) : splitOnChar sep t ≠ [] := by
  cases t with
  | nil => simp [splitOnChar]
  | cons c rest =>
    by_cases h : c = sep
    · simp [splitOnChar, h]
    · simp only [splitOnChar]
      rw [if_neg h]
      cases splitOnChar sep rest <;> simp

theorem splitOnChar_no_sep (sep : Char) (S : Text) (h : sep ∉ S) :
    splitOnChar sep S = [S] := by
  induction S with
  | nil => rfl
  | cons c rest ih =>
    have hc : ¬ (c = sep) := by rintro rfl; exact h (List.mem_cons_self c rest)
    have hrest : sep ∉ rest := fun m => h (List.mem_cons_of_mem c m)
    simp only [splitOnChar]
    rw [if_neg hc, ih hrest]

theorem splitOnChar_headD (sep : Char) (t : Text) :
    (splitOnChar sep t).headD [] = t.takeWhile (fun c => !(c = sep)) := by
  induction t with
  | nil => rfl
  | cons c rest ih =>
    by_cases h : c = sep
    · subst h
      simp [splitOnChar, List.takeWhile_cons]
    · simp only [splitOnChar]
      rw [if_neg h]
      cases hs : splitOnChar sep rest with
      | nil => exact absurd hs (splitOnChar_ne_nil sep rest)
      | cons a l =>
        rw [hs] at ih
        simp only [List.headD_cons] at ih
        simp only [List.headD_cons, List.takeWhile_cons]
        have hp : (!decide (c = sep)) = true := by simp [h]
        rw [hp, if_pos rfl, ← ih]

theorem splitOnChar_app_len (sep : Char) (A S : Text) :
    2 ≤ (splitOnChar sep (A ++ sep :: S)).length := by
  induction A with
  | nil =>
    cases hs : splitOnChar sep S with
    | nil => exact absurd hs (splitOnChar_ne_nil sep S)
    | cons a l =>
      simp [splitOnChar, hs]
  | cons a A ih =>
    by_cases h : a = sep
    · subst h
      have hne := splitOnChar_ne_nil a (A ++ a :: S)
      cases hs : splitOnChar a (A ++ a :: S) with
      | nil => exact absurd hs hne
      | cons b l => simp [splitOnChar, hs]
    · simp only [List.cons_append, splitOnChar]
      rw [if_neg h]
      cases hs : splitOnChar sep (A ++ sep :: S) with
      | nil => exact absurd hs (splitOnChar_ne_nil sep _)
      | cons b l =>
        rw [hs] at ih
        simp only [List.length_cons] at ih ⊢
        omega

theorem getLastD_cons_of_ne_nil {α : Type} (x d : α) (l : List α) (h : l ≠ []) :
    (x :: l).getLastD d = l.getLastD d := by
  cases l with
  | nil => exact absurd rfl h
  | cons y t => simp [List.getLastD]

theorem splitOnChar_getLast (sep : Char) (S : Text) (hS : sep ∉ S) (A : Text) :
    (splitOnChar sep (A ++ sep :: S)).getLastD [] = S := by
  induction A with
  | nil =>
    have hstep : splitOnChar sep ([] ++ sep :: S) = [] :: splitOnChar sep S := by
      simp [splitOnChar]
    rw [hstep, splitOnChar_no_sep sep S hS]
    rfl
  | cons a A ih =>
    by_cases h : a = sep
    · subst h
      have hstep : splitOnChar a ((a :: A) ++ a :: S) = [] :: splitOnChar a (A ++ a :: S) := by
        simp [splitOnChar]
      rw [hstep, getLastD_cons_of_ne_nil _ _ _ (splitOnChar_ne_nil _ _)]
      exact ih
    · simp only [List.cons_append, splitOnChar]
      rw [if_neg h]
      cases hs : splitOnChar sep (A ++ sep :: S) with
      | nil => exact absurd hs (splitOnChar_ne_nil _ _)
      | cons b l =>
        have hlen := splitOnChar_app_len sep A S
        rw [hs] at hlen
        cases l with
        | nil => simp at hlen
        | cons b2 l2 =>
          rw [hs] at ih
          rw [getLastD_cons_of_ne_nil _ _ _ (by simp)] at ih
          rw [getLastD_cons_of_ne_nil _ _ _ (by simp)]
          exact ih

theorem rstripSlash_app (A S : Text) (hS : S ≠ []) (h : '/' ∉ S) :
    rstripSlash (A ++ '/' :: S) = A ++ '/' :: S := by
  obtain ⟨c, T, hcT⟩ : ∃ c T, S.reverse = c :: T := by
    cases hr : S.reverse with
    | nil => exact absurd (by simpa using congrArg List.reverse hr) hS
    | cons c T => exact ⟨c, T, rfl⟩
  have hcm : c ∈ S := by
    rw [← List.mem_reverse, hcT]
    exact List.mem_cons_self c T
  have hc : ¬ (c = '/') := fun e => h (e ▸ hcm)
  have hrev : (A ++ '/' :: S).reverse = c :: (T ++ '/' :: A.reverse) := by
    rw [List.reverse_append, List.reverse_cons, hcT]
    simp
  unfold rstripSlash
  rw [hrev, List.dropWhile_cons]
  have hpc : (decide (c = '/')) = false := by simp [hc]
  rw [hpc, if_neg (by simp)]
  rw [← hrev, List.reverse_reverse]
/-! ## C9: output basenames -/

/-- C9 counterexample to the claim as stated: the URL
https://example.com/a--b has no numeric id and final segment a--b, and the
produced basename is a-b, while the claim's slug transformation (lowercase,
whitespace runs to hyphens, characters outside [a-z0-9-._] removed,
truncate to 120 characters) leaves a--b unchanged; and for
https://example.com/++ the basename is "article" although the claim's slug
of the segment is empty: the code additionally collapses hyphen runs and
substitutes "article" for an empty result. -/
theorem c9_claim_counterexample :
    numericId "https://example.com/a--b".data = none ∧
    url_to_basename "https://example.com/a--b".data = "a-b".data ∧
    claimSlug "a--b".data = "a--b".data ∧
    url_to_basename "https://example.com/a--b".data ≠ claimSlug "a--b".data ∧
    url_to_basename "https://example.com/++".data = "article".data ∧
    claimSlug "++".data = [] := by
  decide

/-- C9 (amended): when the URL ends in /<digits> or /<digits>.html the
basename is exactly that numeric article id; the basename is never empty;
and when no numeric id matches and the URL ends in a nonempty,
slash-free final path segment S, the basename is exactly the sanitization
of S with its query suffix dropped and every ".html" removed: trimmed,
lowercased, each maximal whitespace run replaced by a single hyphen,
characters outside [a-z0-9-._] removed, hyphen runs collapsed to one,
truncated to 120 characters, with "article" substituted when nothing
remains. -/
theorem c9_amended (url A D S : Text) :
    ((D ≠ [] ∧ D.all Char.isDigit = true ∧
        (url = A ++ '/' :: D ∨ url = (A ++ '/' :: D) ++ ".html".data)) →
      url_to_basename url = D) ∧
    url_to_basename url ≠ [] ∧
    ((numericId url = none ∧ url = A ++ '/' :: S ∧ S ≠ [] ∧ '/' ∉ S) →
      url_to_basename url =
        specSlug (replaceAllSub ".html".data []
          (S.takeWhile (fun c => !(c = '?'))))) := by
  refine ⟨?_, ?_, ?_⟩
  · rintro ⟨hD, hdig, rfl | rfl⟩
    · simp only [url_to_basename, numericId_slash_digits A D hD hdig]
    · simp only [url_to_basename, numericId_html A D hD hdig]
  · cases h : numericId url with
    | some ds =>
      simp only [url_to_basename, h]
      exact numericId_some_ne_nil h
    | none =>
      simp only [url_to_basename, h]
      exact (sanitize_filename_props _).2.2
  · rintro ⟨hn, rfl, hS, hslash⟩
    simp only [url_to_basename, hn]
    rw [rstripSlash_app A S hS hslash, splitOnChar_getLast '/' S hslash A,
        splitOnChar_headD, sanitize_filename_eq_specSlug]

/-- Witness for C9 (amended): the article URL ending in /71893.html gets
basename "71893"; the non-numeric URL https://example.com/Ab c.html gets
exactly the spec slug of its final segment, which evaluates to "ab-c"; the
basename is nonempty. -/
theorem c9_amended_witness :
    url_to_basename "https://pravenc.ru/text/71893.html".data = "71893".data ∧
    url_to_basename "https://example.com/Ab c.html".data =
      specSlug (replaceAllSub ".html".data []
        (("Ab c.html".data).takeWhile (fun c => !(c = '?')))) ∧
    url_to_basename "https://example.com/Ab c.html".data ≠ [] ∧
    specSlug (replaceAllSub ".html".data []
      (("Ab c.html".data).takeWhile (fun c => !(c = '?')))) = "ab-c".data := by
  refine ⟨?_, ?_, ?_, ?_⟩
  · exact (c9_amended "https://pravenc.ru/text/71893.html".data
      "https://pravenc.ru/text".data "71893".data []).1
      ⟨by decide, by decide, Or.inr (by decide)⟩
  · exact (c9_amended "https://example.com/Ab c.html".data
      "https://example.com".data [] "Ab c.html".data).2.2
      ⟨by decide, by decide, by decide, by decide⟩
  · exact (c9_amended "https://example.com/Ab c.html".data [] [] []).2.1
  · decide

/-! ## C4: URL absolutizer idempotence -/

theorem splitScheme_of_two (s rest : Text)
    (hs : s = "http".data ∨ s = "https".data) :
    splitScheme (s ++ ':' :: rest) = some (s, rest) := by
  rcases hs with rfl | rfl
  · rw [show ("http".data ++ ':' :: rest : Text) = 'h' :: 't' :: 't' :: 'p' :: ':' :: rest from rfl]
    simp [splitScheme, subIndex, leadsWith]
    decide
  · rw [show ("https".data ++ ':' :: rest : Text) =
      'h' :: 't' :: 't' :: 'p' :: 's' :: ':' :: rest from rfl]
    simp [splitScheme, subIndex, leadsWith]
    decide

theorem normPath_shape (p : Text) : normPath p = [] ∨ ∃ q, normPath p = '/' :: q := by
  unfold normPath
  split_ifs with h
  · exact Or.inr ⟨p, rfl⟩
  · push_neg at h
    by_cases hp : p = []
    · exact Or.inl hp
    · obtain ⟨cs, rfl, -⟩ := leadsWith_cons_ex (h hp)
      exact Or.inr ⟨cs, rfl⟩

theorem normPath_norm (p : Text) : normPath (normPath p) = normPath p := by
  rcases normPath_shape p with h | ⟨q, h⟩ <;> rw [h]
  · rfl
  · simp [normPath, leadsWith]

theorem takeWhile_all {α : Type} (p : α → Bool) (l : List α) :
    (l.takeWhile p).all p = true := by
  rw [List.all_eq_true]
  exact fun x hx => List.mem_takeWhile_imp hx

theorem netloc_all (x : Text) :
    (urlsplit x).netloc.all (fun c => !(endsNetloc c)) = true := by
  unfold urlsplit splitNetloc
  cases splitScheme x with
  | none =>
    simp only
    split_ifs
    · exact takeWhile_all _ _
    · rfl
  | some sr =>
    simp only
    split_ifs
    · exact takeWhile_all _ _
    · rfl

theorem unsplit_of_two (s n p : Text) (hn : n ≠ []) :
    urlunsplit ⟨s, n, p⟩ = s ++ ':' :: ("//".data ++ n ++ normPath p) ∨ s = [] := by
  by_cases hs : s = []
  · exact Or.inr hs
  · left
    simp [urlunsplit, hn, hs]

theorem urlsplit_unsplit (s n p : Text)
    (hs : s = "http".data ∨ s = "https".data) (hn : n ≠ [])
    (hna : n.all (fun c => !(endsNetloc c)) = true) :
    splitScheme (urlunsplit ⟨s, n, p⟩) = some (s, "//".data ++ n ++ normPath p) ∧
    urlsplit (urlunsplit ⟨s, n, p⟩) = ⟨s, n, normPath p⟩ := by
  have hsne : s ≠ [] := by rcases hs with rfl | rfl <;> simp
  have hu : urlunsplit ⟨s, n, p⟩ = s ++ ':' :: ("//".data ++ n ++ normPath p) := by
    rcases unsplit_of_two s n p hn with h | h
    · exact h
    · exact absurd h hsne
  have hss : splitScheme (urlunsplit ⟨s, n, p⟩) =
      some (s, "//".data ++ n ++ normPath p) := by
    rw [hu]
    exact splitScheme_of_two s _ hs
  refine ⟨hss, ?_⟩
  have htw : (n ++ normPath p).takeWhile (fun c => !(endsNetloc c)) = n := by
    rw [List.takeWhile_append_of_pos (fun a ha => List.all_eq_true.mp hna a ha)]
    rcases normPath_shape p with h | ⟨q, h⟩ <;> rw [h]
    · simp
    · simp [List.takeWhile_cons, endsNetloc]
  have hdw : (n ++ normPath p).dropWhile (fun c => !(endsNetloc c)) = normPath p := by
    rw [List.dropWhile_append_of_pos (fun a ha => List.all_eq_true.mp hna a ha)]
    rcases normPath_shape p with h | ⟨q, h⟩ <;> rw [h]
    · simp
    · simp [List.dropWhile_cons, endsNetloc]
  simp only [urlsplit, hss]
  have hld : leadsWith "//".data ("//".data ++ n ++ normPath p) = true := by
    rw [List.append_assoc]
    exact leadsWith_append_self _ _
  have hdrop : ("//".data ++ n ++ normPath p).drop 2 = n ++ normPath p := by
    rw [List.append_assoc]
    rfl
  simp only [splitNetloc, hld, if_true, hdrop, htw, hdw]

theorem urljoin_unsplit_self (base : Text) (hb : goodBase base) (n p : Text)
    (hn : n ≠ []) (hna : n.all (fun c => !(endsNetloc c)) = true) :
    urljoin base (urlunsplit ⟨(urlsplit base).scheme, n, p⟩) =
      urlunsplit ⟨(urlsplit base).scheme, n, p⟩ := by
  obtain ⟨hbne, hcanon, hs2, hnb⟩ := hb
  have hsne : (urlsplit base).scheme ≠ [] := by rcases hs2 with h | h <;> simp [h]
  obtain ⟨hss, hsp⟩ := urlsplit_unsplit (urlsplit base).scheme n p hs2 hn hna
  have hrne : urlunsplit ⟨(urlsplit base).scheme, n, p⟩ ≠ [] := by
    rcases unsplit_of_two (urlsplit base).scheme n p hn with h | h
    · rw [h]
      rcases hs2 with h2 | h2 <;> simp [h2]
    · exact absurd h hsne
  have hrel : relativeOk (urlsplit base).scheme = true := by
    rcases hs2 with h | h <;> simp [relativeOk, h]
  simp only [urljoin, if_neg hbne, if_neg hrne, hss, hsp, Option.isSome_some, if_true]
  rw [if_neg (by simp [hrel]), if_pos (by simpa using hn)]
  simp only [urlunsplit, normPath_norm]
  rw [if_pos (show n ≠ [] ∨ leadsWith ['/', '/'] (normPath p) = true from Or.inl hn),
    if_pos (show n ≠ [] ∨ leadsWith ['/', '/'] p = true from Or.inl hn)]

theorem urljoin_nil_right (base : Text) (hbne : base ≠ []) : urljoin base [] = base := by
  unfold urljoin
  rw [if_neg hbne, if_pos rfl]

set_option maxHeartbeats 1000000 in
theorem urljoin_shapes (base : Text) (hb : goodBase base) (u : Text) :
    urljoin base u = u ∨
      ∃ n p, urljoin base u = urlunsplit ⟨(urlsplit base).scheme, n, p⟩ ∧ n ≠ [] ∧
        n.all (fun c => !(endsNetloc c)) = true := by
  by_cases hu : u = []
  · subst hu
    refine Or.inr ⟨(urlsplit base).netloc, (urlsplit base).path, ?_, hb.2.2.2,
      netloc_all base⟩
    have he : (⟨(urlsplit base).scheme, (urlsplit base).netloc, (urlsplit base).path⟩ :
        SplitUrl) = urlsplit base := rfl
    rw [he, hb.2.1]
    exact urljoin_nil_right base hb.1
  · unfold urljoin
    rw [if_neg hb.1, if_neg hu]
    dsimp only
    split_ifs with h1 h2 h3 h4 h5 h6 h7 h8
    all_goals first
      | exact Or.inl rfl
      | exact Or.inr ⟨(urlsplit u).netloc, _, by rw [h2.1], h3, netloc_all u⟩
      | exact Or.inr ⟨(urlsplit u).netloc, _, rfl, by assumption, netloc_all u⟩
      | exact Or.inr ⟨(urlsplit base).netloc, _, by rw [h2.1], hb.2.2.2, netloc_all base⟩
      | exact Or.inr ⟨(urlsplit base).netloc, _, rfl, hb.2.2.2, netloc_all base⟩

theorem urljoin_idem (base : Text) (hb : goodBase base) (u : Text) :
    urljoin base (urljoin base u) = urljoin base u := by
  rcases urljoin_shapes base hb u with h | ⟨n, p, hr, hn, hna⟩
  · rw [h]
    exact h
  · rw [hr]
    exact urljoin_unsplit_self base hb n p hn hna

theorem getAttr_setAttr (attrs : List (String × Text)) (k : String) (v : Text) :
    getAttr (setAttr attrs k v) k = some v := by
  induction attrs with
  | nil => simp [setAttr, getAttr]
  | cons a rest ih =>
    by_cases h : a.1 = k
    · simp [setAttr, getAttr, h]
    · simp only [setAttr, getAttr]
      rw [if_neg h, ]
      simp only [getAttr]
      rw [if_neg h]
      exact ih

theorem setAttr_self (attrs : List (String × Text)) (k : String) (v : Text)
    (h : getAttr attrs k = some v) : setAttr attrs k v = attrs := by
  induction attrs with
  | nil => simp [getAttr] at h
  | cons a rest ih =>
    obtain ⟨k0, v0⟩ := a
    by_cases hk : k0 = k
    · simp only [getAttr, if_pos hk] at h
      injection h with h2
      simp [setAttr, hk, ← h2]
    · simp only [getAttr, if_neg hk] at h
      simp [setAttr, hk, ih h]

theorem absolutizeAttr_nospace {base u : Text}
    (h : occursIn [' '] (urljoin base u) = false) :
    absolutizeAttr base u = urljoin base u := by
  simp [absolutizeAttr, h]

theorem absolutizeAttr_stable {base u : Text} (hb : goodBase base)
    (h : occursIn [' '] (urljoin base u) = false) :
    occursIn [' '] (urljoin base (absolutizeAttr base u)) = false ∧
    absolutizeAttr base (absolutizeAttr base u) = absolutizeAttr base u := by
  have h2 : occursIn [' '] (urljoin base (urljoin base u)) = false := by
    rw [urljoin_idem base hb u]
    exact h
  constructor
  · rw [absolutizeAttr_nospace h]
    exact h2
  · rw [absolutizeAttr_nospace h, absolutizeAttr_nospace h2]
    exact urljoin_idem base hb u

theorem ownUrlAttrs_absTag (base : Text) (name : String) (attrs : List (String × Text)) :
    ownUrlAttrs name (absTag base name attrs) =
      (ownUrlAttrs name attrs).map (absolutizeAttr base) := by
  by_cases ha : name = "a"
  · simp only [ownUrlAttrs, absTag, if_pos ha]
    cases h : getAttr attrs "href" with
    | some v => simp [getAttr_setAttr, h]
    | none => simp [h]
  · by_cases hm : name = "img" ∨ name = "source" ∨ name = "audio" ∨ name = "video"
    · simp only [ownUrlAttrs, absTag, if_neg ha, if_pos hm]
      cases h : getAttr attrs "src" with
      | some v => simp [getAttr_setAttr, h]
      | none => simp [h]
    · simp [ownUrlAttrs, absTag, ha, hm]

theorem absTag_stable (base : Text) (name : String) (attrs : List (String × Text))
    (h : ∀ u ∈ ownUrlAttrs name attrs, absolutizeAttr base u = u) :
    absTag base name attrs = attrs := by
  by_cases ha : name = "a"
  · simp only [absTag, if_pos ha]
    cases hg : getAttr attrs "href" with
    | some v =>
      have hv : absolutizeAttr base v = v := by
        apply h
        simp [ownUrlAttrs, if_pos ha, hg]
      show setAttr attrs "href" (absolutizeAttr base v) = attrs
      rw [hv]
      exact setAttr_self attrs "href" v hg
    | none => rfl
  · by_cases hm : name = "img" ∨ name = "source" ∨ name = "audio" ∨ name = "video"
    · simp only [absTag, if_neg ha, if_pos hm]
      cases hg : getAttr attrs "src" with
      | some v =>
        have hv : absolutizeAttr base v = v := by
          apply h
          simp [ownUrlAttrs, if_neg ha, if_pos hm, hg]
        show setAttr attrs "src" (absolutizeAttr base v) = attrs
        rw [hv]
        exact setAttr_self attrs "src" v hg
      | none => rfl
    · simp [absTag, ha, hm]

theorem absSourcesNode_elem (base : Text) (name : String) (attrs : List (String × Text))
    (ch : HList) :
    absSourcesNode base (.elem name attrs ch) =
      .elem name
        (if name = "source" then
          match getAttr attrs "src" with
          | some v => setAttr attrs "src" (absolutizeAttr base v)
          | none => attrs
        else attrs)
        (absSourcesList base ch) := rfl

theorem absSourcesList_cons (base : Text) (n : HNode) (rest : HList) :
    absSourcesList base (.cons n rest) =
      .cons (absSourcesNode base n) (absSourcesList base rest) := rfl

theorem absNode_elem (base : Text) (name : String) (attrs : List (String × Text))
    (ch : HList) :
    absNode base (.elem name attrs ch) =
      .elem name (absTag base name attrs)
        (absList base
          (if name = "audio" ∨ name = "video" then absSourcesList base ch else ch)) := by
  rw [absNode]

theorem absList_cons (base : Text) (n : HNode) (rest : HList) :
    absList base (.cons n rest) = .cons (absNode base n) (absList base rest) := by
  rw [absList]

theorem absSources_space (base : Text) (hb : goodBase base) :
    ∀ k : Nat,
      (∀ n, sizeNode n ≤ k →
        (∀ u ∈ urlAttrsNode n, occursIn [' '] (urljoin base u) = false) →
        ∀ u ∈ urlAttrsNode (absSourcesNode base n),
          occursIn [' '] (urljoin base u) = false) ∧
      (∀ l, sizeList l ≤ k →
        (∀ u ∈ urlAttrsList l, occursIn [' '] (urljoin base u) = false) →
        ∀ u ∈ urlAttrsList (absSourcesList base l),
          occursIn [' '] (urljoin base u) = false) := by
  intro k
  induction k using Nat.strong_induction_on with
  | _ k ih =>
    constructor
    · intro n hk hsp
      cases n with
      | text t => intro u hu; simp [absSourcesNode, absSourcesNodeS, urlAttrsNode] at hu
      | elem name attrs ch =>
        intro u hu
        rw [absSourcesNode_elem] at hu
        simp only [urlAttrsNode, List.mem_append] at hu
        rcases hu with hu | hu
        · by_cases hsrc : name = "source"
          · rw [if_pos hsrc] at hu
            cases hg : getAttr attrs "src" with
            | some v =>
              rw [hg] at hu
              have hv : occursIn [' '] (urljoin base v) = false := by
                apply hsp
                simp [urlAttrsNode, ownUrlAttrs, hsrc, hg, List.mem_append]
              have : u = absolutizeAttr base v := by
                simp only [ownUrlAttrs, hsrc, if_neg (by decide :
                  ¬ ("source" : String) = "a"), getAttr_setAttr] at hu
                simpa using hu
              rw [this]
              exact (absolutizeAttr_stable hb hv).1
            | none =>
              rw [hg] at hu
              exact hsp u (by simp [urlAttrsNode, List.mem_append, hu])
          · rw [if_neg hsrc] at hu
            exact hsp u (by simp [urlAttrsNode, List.mem_append, hu])
        · have hch : sizeList ch < k := by
            have : sizeNode (HNode.elem name attrs ch) = 1 + sizeList ch := rfl
            omega
          have hspch : ∀ u ∈ urlAttrsList ch, occursIn [' '] (urljoin base u) = false :=
            fun u hu => hsp u (by simp [urlAttrsNode, List.mem_append, hu])
          exact (ih (sizeList ch) hch).2 ch le_rfl hspch u hu
    · intro l hk hsp
      cases l with
      | nil => intro u hu; simp [absSourcesList, absSourcesListS, urlAttrsList] at hu
      | cons n rest =>
        intro u hu
        rw [absSourcesList_cons] at hu
        simp only [urlAttrsList, List.mem_append] at hu
        have hsz : sizeList (HList.cons n rest) = 1 + sizeNode n + sizeList rest := rfl
        rcases hu with hu | hu
        · have hn : sizeNode n < k := by omega
          have hspn : ∀ u ∈ urlAttrsNode n, occursIn [' '] (urljoin base u) = false :=
            fun u hu => hsp u (by simp [urlAttrsList, List.mem_append, hu])
          exact (ih (sizeNode n) hn).1 n le_rfl hspn u hu
        · have hr : sizeList rest < k := by omega
          have hspr : ∀ u ∈ urlAttrsList rest, occursIn [' '] (urljoin base u) = false :=
            fun u hu => hsp u (by simp [urlAttrsList, List.mem_append, hu])
          exact (ih (sizeList rest) hr).2 rest le_rfl hspr u hu

theorem abs_stable (base : Text) (hb : goodBase base) :
    ∀ k : Nat,
      (∀ n, sizeNode n ≤ k →
        (∀ u ∈ urlAttrsNode n, occursIn [' '] (urljoin base u) = false) →
        ∀ u ∈ urlAttrsNode (absNode base n), absolutizeAttr base u = u) ∧
      (∀ l, sizeList l ≤ k →
        (∀ u ∈ urlAttrsList l, occursIn [' '] (urljoin base u) = false) →
        ∀ u ∈ urlAttrsList (absList base l), absolutizeAttr base u = u) := by
  intro k
  induction k using Nat.strong_induction_on with
  | _ k ih =>
    constructor
    · intro n hk hsp
      cases n with
      | text t => intro u hu; simp [absNode, urlAttrsNode] at hu
      | elem name attrs ch =>
        intro u hu
        rw [absNode_elem] at hu
        simp only [urlAttrsNode, List.mem_append] at hu
        have hsz : sizeNode (HNode.elem name attrs ch) = 1 + sizeList ch := rfl
        rcases hu with hu | hu
        · rw [ownUrlAttrs_absTag] at hu
          obtain ⟨v, hv, rfl⟩ := List.mem_map.mp hu
          have hvs : occursIn [' '] (urljoin base v) = false :=
            hsp v (by simp [urlAttrsNode, List.mem_append, hv])
          exact (absolutizeAttr_stable hb hvs).2
        · set ch' := if name = "audio" ∨ name = "video" then absSourcesList base ch
            else ch with hch'
          have hsize : sizeList ch' = sizeList ch := by
            rw [hch']
            split
            · exact (absSourcesListS base ch).2
            · rfl
          have hlt : sizeList ch' < k := by omega
          have hsp' : ∀ u ∈ urlAttrsList ch', occursIn [' '] (urljoin base u) = false := by
            rw [hch']
            split
            · exact (absSources_space base hb (sizeList ch)).2 ch le_rfl
                (fun u hu => hsp u (by simp [urlAttrsNode, List.mem_append, hu]))
            · exact fun u hu => hsp u (by simp [urlAttrsNode, List.mem_append, hu])
          exact (ih (sizeList ch') hlt).2 ch' le_rfl hsp' u hu
    · intro l hk hsp
      cases l with
      | nil => intro u hu; simp [absList, urlAttrsList] at hu
      | cons n rest =>
        intro u hu
        rw [absList_cons] at hu
        simp only [urlAttrsList, List.mem_append] at hu
        have hsz : sizeList (HList.cons n rest) = 1 + sizeNode n + sizeList rest := rfl
        rcases hu with hu | hu
        · have hn : sizeNode n < k := by omega
          exact (ih (sizeNode n) hn).1 n le_rfl
            (fun u hu => hsp u (by simp [urlAttrsList, List.mem_append, hu])) u hu
        · have hr : sizeList rest < k := by omega
          exact (ih (sizeList rest) hr).2 rest le_rfl
            (fun u hu => hsp u (by simp [urlAttrsList, List.mem_append, hu])) u hu

theorem sources_id (base : Text) :
    ∀ k : Nat,
      (∀ n, sizeNode n ≤ k →
        (∀ u ∈ urlAttrsNode n, absolutizeAttr base u = u) →
        absSourcesNode base n = n) ∧
      (∀ l, sizeList l ≤ k →
        (∀ u ∈ urlAttrsList l, absolutizeAttr base u = u) →
        absSourcesList base l = l) := by
  intro k
  induction k using Nat.strong_induction_on with
  | _ k ih =>
    constructor
    · intro n hk hst
      cases n with
      | text t => rfl
      | elem name attrs ch =>
        rw [absSourcesNode_elem]
        have hsz : sizeNode (HNode.elem name attrs ch) = 1 + sizeList ch := rfl
        have hch : absSourcesList base ch = ch := by
          have hlt : sizeList ch < k := by omega
          exact (ih (sizeList ch) hlt).2 ch le_rfl
            (fun u hu => hst u (by simp [urlAttrsNode, List.mem_append, hu]))
        rw [hch]
        by_cases hsrc : name = "source"
        · rw [if_pos hsrc]
          cases hg : getAttr attrs "src" with
          | some v =>
            have hv : absolutizeAttr base v = v := by
              apply hst
              simp [urlAttrsNode, ownUrlAttrs, hsrc, hg, List.mem_append]
            show HNode.elem name (setAttr attrs "src" (absolutizeAttr base v)) ch =
              HNode.elem name attrs ch
            rw [hv, setAttr_self attrs "src" v hg]
          | none => rfl
        · rw [if_neg hsrc]
    · intro l hk hst
      cases l with
      | nil => rfl
      | cons n rest =>
        rw [absSourcesList_cons]
        have hsz : sizeList (HList.cons n rest) = 1 + sizeNode n + sizeList rest := rfl
        have h1 : absSourcesNode base n = n :=
          (ih (sizeNode n) (by omega)).1 n le_rfl
            (fun u hu => hst u (by simp [urlAttrsList, List.mem_append, hu]))
        have h2 : absSourcesList base rest = rest :=
          (ih (sizeList rest) (by omega)).2 rest le_rfl
            (fun u hu => hst u (by simp [urlAttrsList, List.mem_append, hu]))
        rw [h1, h2]

theorem abs_id (base : Text) :
    ∀ k : Nat,
      (∀ n, sizeNode n ≤ k →
        (∀ u ∈ urlAttrsNode n, absolutizeAttr base u = u) →
        absNode base n = n) ∧
      (∀ l, sizeList l ≤ k →
        (∀ u ∈ urlAttrsList l, absolutizeAttr base u = u) →
        absList base l = l) := by
  intro k
  induction k using Nat.strong_induction_on with
  | _ k ih =>
    constructor
    · intro n hk hst
      cases n with
      | text t => rw [absNode]
      | elem name attrs ch =>
        rw [absNode_elem]
        have hsz : sizeNode (HNode.elem name attrs ch) = 1 + sizeList ch := rfl
        have htag : absTag base name attrs = attrs :=
          absTag_stable base name attrs
            (fun u hu => hst u (by simp [urlAttrsNode, List.mem_append, hu]))
        have hstch : ∀ u ∈ urlAttrsList ch, absolutizeAttr base u = u :=
          fun u hu => hst u (by simp [urlAttrsNode, List.mem_append, hu])
        have hsrcs : (if name = "audio" ∨ name = "video" then absSourcesList base ch
            else ch) = ch := by
          split
          · exact (sources_id base (sizeList ch)).2 ch le_rfl hstch
          · rfl
        rw [htag, hsrcs]
        have hch : absList base ch = ch :=
          (ih (sizeList ch) (by omega)).2 ch le_rfl hstch
        rw [hch]
    · intro l hk hst
      cases l with
      | nil => rw [absList]
      | cons n rest =>
        rw [absList_cons]
        have hsz : sizeList (HList.cons n rest) = 1 + sizeNode n + sizeList rest := rfl
        have h1 : absNode base n = n :=
          (ih (sizeNode n) (by omega)).1 n le_rfl
            (fun u hu => hst u (by simp [urlAttrsList, List.mem_append, hu]))
        have h2 : absList base rest = rest :=
          (ih (sizeList rest) (by omega)).2 rest le_rfl
            (fun u hu => hst u (by simp [urlAttrsList, List.mem_append, hu]))
        rw [h1, h2]

/-- C4 fails as stated: with base URL https://pravenc.ru/text/1.html and a
content subtree holding one link to "a b.html", the first run wraps the
resolved URL (it contains a space) in angle brackets, and the second run
re-resolves the bracketed string as a relative path and wraps it again,
so running the absolutizer twice changes the tree a second time. -/
theorem c4_claim_counterexample :
    urlAttrsNode
        (absolutize_urls "https://pravenc.ru/text/1.html".data
          (absolutize_urls "https://pravenc.ru/text/1.html".data
            (.elem "div" [] (.cons (.elem "a" [("href", "a b.html".data)] .nil) .nil)))) ≠
      urlAttrsNode
        (absolutize_urls "https://pravenc.ru/text/1.html".data
          (.elem "div" [] (.cons (.elem "a" [("href", "a b.html".data)] .nil) .nil))) := by
  simp only [absolutize_urls, absList, absNode]
  decide

/-- C4 amended: the absolutizer is idempotent on any content subtree in
which no rewritten URL resolves to an absolute URL containing a space
(so no angle-bracket wrapping occurs), provided the base URL is a
canonical absolute http or https URL with a nonempty host. -/
theorem c4_amended (base : Text) (el : HNode) (hb : goodBase base)
    (hs : ∀ u ∈ urlAttrsNode el, occursIn [' '] (urljoin base u) = false) :
    absolutize_urls base (absolutize_urls base el) = absolutize_urls base el := by
  cases el with
  | text t => rfl
  | elem name attrs ch =>
    show HNode.elem name attrs (absList base (absList base ch)) =
      HNode.elem name attrs (absList base ch)
    have hstable : ∀ u ∈ urlAttrsList (absList base ch), absolutizeAttr base u = u :=
      (abs_stable base hb (sizeList ch)).2 ch le_rfl
        (fun u hu => hs u (by simp [urlAttrsNode, List.mem_append, hu]))
    rw [(abs_id base (sizeList (absList base ch))).2 (absList base ch) le_rfl hstable]

/-- Witness for C4 amended: a tree with one space-free relative link is
absolutized idempotently. -/
theorem c4_amended_witness :
    absolutize_urls "https://pravenc.ru/text/1.html".data
        (absolutize_urls "https://pravenc.ru/text/1.html".data
          (.elem "div" [] (.cons (.elem "a" [("href", "2.html".data)] .nil) .nil))) =
      absolutize_urls "https://pravenc.ru/text/1.html".data
        (.elem "div" [] (.cons (.elem "a" [("href", "2.html".data)] .nil) .nil)) :=
  c4_amended "https://pravenc.ru/text/1.html".data
    (.elem "div" [] (.cons (.elem "a" [("href", "2.html".data)] .nil) .nil))
    (by constructor
        · decide
        · refine ⟨by decide, by decide, by decide⟩)
    (by intro u hu
        simp [urlAttrsNode, ownUrlAttrs, urlAttrsList, getAttr] at hu
        subst hu
        decide)
